import Mathlib

/-!
Verification of the configuration-patch engine of `yolks/minecraft/runtime/start_hook.py`
(class `ConfigurationPatcher`).

The Python data model (JSON/YAML-like documents) is embedded as the inductive `Val`:
Python `dict` becomes an insertion-ordered association list with string keys,
`list` becomes `List Val`, and scalars become the remaining constructors.
Functions that can raise a Python exception (`TypeError`, `AttributeError`,
`ValueError`) are embedded as `Option`-valued functions where `none` models the
exception.  Where the Python source uses unbounded scanning loops
(`re.sub` scanning, `str.split(".*.")`), the embedding uses an explicit fuel
argument initialised to the input length, which is always sufficient because every
step consumes at least one character; this keeps every definition computable by
the kernel.
-/

namespace StartHook

/-- The generic document model: scalars, arrays and insertion-ordered maps,
mirroring the values `ruamel.yaml`/`json` produce for the patcher. -/
inductive Val where
  | null : Val
  | bool : Bool → Val
  | int : Int → Val
  | str : String → Val
  | list : List Val → Val
  | dict : List (String × Val) → Val

/-- `isinstance(v, dict)`. -/
def Val.isDict : Val → Bool
  | .dict _ => true
  | _ => false

/-- Python hashability of the modelled value kinds: `None`, `bool`, `int` and
`str` are hashable, while `list` and `dict` are not, so using one of the
latter as the left operand of `in` against a dict raises
`TypeError: unhashable type`. -/
def Val.hashable : Val → Bool
  | .list _ => false
  | .dict _ => false
  | _ => true

/-- Lookup in a Python dict modelled as an association list (`key in d` plus
`d[key]`): first matching key wins. -/
def assocLookup (kvs : List (String × Val)) (k : String) : Option Val :=
  match kvs with
  | [] => none
  | (k', v) :: rest => if k' = k then some v else assocLookup rest k

/-- Python dict assignment `d[k] = v`: replace the value in place if the key is
present, otherwise append the new binding at the end (insertion order). -/
def assocSet (kvs : List (String × Val)) (k : String) (v : Val) : List (String × Val) :=
  match kvs with
  | [] => [(k, v)]
  | (k', w) :: rest => if k' = k then (k', v) :: rest else (k', w) :: assocSet rest k v

/-- The whitespace characters stripped by Python `str.strip()` (ASCII range). -/
def isPyWs (c : Char) : Bool :=
  c == ' ' || c == '\t' || c == '\n' || c == '\r' || c == '\x0b' || c == '\x0c'

/-- Python `str.strip()` on a character list. -/
def pyStripC (cs : List Char) : List Char :=
  (((cs.dropWhile isPyWs).reverse).dropWhile isPyWs).reverse

/-- Python `str.strip()`. -/
def pyStrip (s : String) : String := ⟨pyStripC s.data⟩

/-- A character of the regex class `\w` (ASCII fragment): letters, digits, `_`. -/
def isWordChar (c : Char) : Bool := c.isAlphanum || c == '_'

/-- Numeric value of a digit string, as computed by Python `int()` on a string of
decimal digits (leading zeros lost). -/
def natOfDigitsC (cs : List Char) : Nat :=
  cs.foldl (fun n c => n * 10 + (c.toNat - 48)) 0

/-- Python `str.isdigit()` restricted to ASCII: nonempty and all decimal digits. -/
def isDigitsC (cs : List Char) : Bool := !cs.isEmpty && cs.all Char.isDigit

/-- Python `str.lower()` (ASCII). -/
def strLower (s : String) : String := ⟨s.data.map Char.toLower⟩

/-- `ConfigurationPatcher._to_native_type` (start_hook.py lines 44-54): strings
equal to true/false case-insensitively become booleans, digit strings become
integers, anything else is returned unchanged; non-strings pass through. -/
def toNativeType : Val → Val
  | .str s =>
    let lo := strLower s
    if lo = "true" then .bool true
    else if lo = "false" then .bool false
    else if isDigitsC lo.data then .int (natOfDigitsC lo.data)
    else .str s
  | v => v

/-- The environment snapshot (`os.getenv`): a partial map from variable names to
values. -/
abbrev Env : Type := String → Option String

/-- Try to match the placeholder regex `\{\{([a-zA-Z0-9_]+)\}\}` at the head of
the character list; on success return the captured name and the remainder after
the match.  The `+` quantifiers are maximal-munch here because a word character
can never be `}`. -/
def matchPlaceholder : List Char → Option (List Char × List Char)
  | '{' :: '{' :: rest =>
    let name := rest.takeWhile isWordChar
    let r2 := rest.dropWhile isWordChar
    if name.isEmpty then none
    else
      match r2 with
      | '}' :: '}' :: r3 => some (name, r3)
      | _ => none
  | _ => none

/-- The replacement function `repl` inside `_expand_variables` (lines 70-72):
the environment value if set, otherwise the visibly-tagged undefined marker. -/
def envReplacement (env : Env) (name : List Char) : List Char :=
  match env ⟨name⟩ with
  | some v => v.data
  | none => "\x7b\x7b_UNDEFINED_".data ++ name ++ "\x7d\x7d".data

/-- One left-to-right, non-overlapping `re.sub` scan for the placeholder
pattern.  `fuel` bounds the number of scan steps; every step consumes at least
one character, so `fuel = length` is always enough. -/
def substF (env : Env) : Nat → List Char → List Char
  | _, [] => []
  | 0, cs => cs
  | fuel + 1, c :: cs =>
    match matchPlaceholder (c :: cs) with
    | some (name, rest) => envReplacement env name ++ substF env fuel rest
    | none => c :: substF env fuel cs

/-- `re.sub(r"\{\{([a-zA-Z0-9_]+)\}\}", repl, value)` from `_expand_variables`. -/
def substStr (env : Env) (s : String) : String := ⟨substF env s.data.length s.data⟩

/-- `ConfigurationPatcher._expand_variables` (lines 67-81): substitute
placeholders in every string leaf and coerce the result with
`_to_native_type`; recurse through dicts and lists; other values pass
through. -/
def expandDeep (env : Env) : Val → Val
  | .str s => toNativeType (.str (substStr env s))
  | .null => .null
  | .bool b => .bool b
  | .int n => .int n
  | .list xs => .list (xs.attach.map (fun x => expandDeep env x.1))
  | .dict kvs => .dict (kvs.attach.map (fun kv => (kv.1.1, expandDeep env kv.1.2)))
termination_by v => sizeOf v
decreasing_by
  · have := List.sizeOf_lt_of_mem x.2
    simp only [Val.list.sizeOf_spec]
    omega
  · have h1 := List.sizeOf_lt_of_mem kv.2
    have h2 : sizeOf kv.1.2 < sizeOf kv.1 := by
      obtain ⟨a, b⟩ := kv.1
      simp only [Prod.mk.sizeOf_spec]
      omega
    simp only [Val.dict.sizeOf_spec]
    omega

/-- `ConfigurationPatcher._expand_variables`, with the container recursion
unfolded one level so that every scalar case reduces definitionally (the
`attach` in `expandDeep` is only a termination device and blocks kernel
reduction). -/
def expandVariables (env : Env) (v : Val) : Val :=
  match v with
  | .str s => toNativeType (.str (substStr env s))
  | .null => .null
  | .bool b => .bool b
  | .int n => .int n
  | .list xs => .list (xs.map (expandDeep env))
  | .dict kvs => .dict (kvs.map (fun kv => (kv.1, expandDeep env kv.2)))

/-- Python `str()` of an integer. -/
def intStr (n : Int) : String := toString n

/-- Python `repr` on document values (used by `str()` on containers).  String
escaping inside `repr` is simplified to plain single quotes, which is exact
for quote- and escape-free strings; the adapters below only ever hit the
scalar cases. -/
def pyReprDeep : Val → String
  | .null => "None"
  | .bool true => "True"
  | .bool false => "False"
  | .int n => intStr n
  | .str s => "'" ++ s ++ "'"
  | .list xs =>
    "[" ++ String.intercalate ", " (xs.attach.map (fun x => pyReprDeep x.1)) ++ "]"
  | .dict kvs =>
    "\x7b" ++
      String.intercalate ", "
        (kvs.attach.map (fun kv => "'" ++ kv.1.1 ++ "': " ++ pyReprDeep kv.1.2)) ++
    "\x7d"
termination_by v => sizeOf v
decreasing_by
  · have := List.sizeOf_lt_of_mem x.2
    simp only [Val.list.sizeOf_spec]
    omega
  · have h1 := List.sizeOf_lt_of_mem kv.2
    have h2 : sizeOf kv.1.2 < sizeOf kv.1 := by
      obtain ⟨a, b⟩ := kv.1
      simp only [Prod.mk.sizeOf_spec]
      omega
    simp only [Val.dict.sizeOf_spec]
    omega

/-- Python `str()` of a document value, as used by the f-strings
`f"{key}={final_value}"` in the properties adapter. -/
def pyStr : Val → String
  | .str s => s
  | .null => "None"
  | .bool true => "True"
  | .bool false => "False"
  | .int n => intStr n
  | v => pyReprDeep v

/-- Match `re.match(r"(\w+)\[(\d+)\]", key)` against a path segment: a nonempty
run of word characters, `[`, a nonempty run of digits, `]`; as with `re.match`,
trailing characters after the `]` are ignored. -/
def parseBracketC (cs : List Char) : Option (List Char × Nat) :=
  let w := cs.takeWhile isWordChar
  let r1 := cs.dropWhile isWordChar
  if w.isEmpty then none
  else
    match r1 with
    | '[' :: r2 =>
      let d := r2.takeWhile Char.isDigit
      let r3 := r2.dropWhile Char.isDigit
      if d.isEmpty then none
      else
        match r3 with
        | ']' :: _ => some (w, natOfDigitsC d)
        | _ => none
    | _ => none

/-- Bracket-segment parsing on strings: `key[index]`. -/
def parseBracket (s : String) : Option (String × Nat) :=
  match parseBracketC s.data with
  | some (w, i) => some (⟨w⟩, i)
  | none => none

/-- Splitter for `_get_nested_value`: plain `path.split(".")`, as
(first segment, remaining segments). -/
def splitDotAux : List Char → List Char × List (List Char)
  | [] => ([], [])
  | c :: rest =>
    let r := splitDotAux rest
    if c = '.' then ([], r.1 :: r.2) else (c :: r.1, r.2)

/-- Plain dot split (`path.split(".")`). -/
def splitDotC (cs : List Char) : List (List Char) :=
  ((splitDotAux cs).1) :: (splitDotAux cs).2

/-- Splitter for `_set_nested_value`: `re.split(r"\.(?![^\[]*\])", path)`.
A dot is a split point unless, in the remaining characters, a `]` occurs before
any `[` (that is the negative-lookahead `[^\[]*\]`). -/
def splitRegexAux : List Char → List Char × List (List Char)
  | [] => ([], [])
  | c :: rest =>
    let r := splitRegexAux rest
    if c = '.' ∧ ((rest.takeWhile (fun x => x ≠ '[')).contains ']') = false then
      ([], r.1 :: r.2)
    else (c :: r.1, r.2)

/-- The bracket-aware dot split used by `_set_nested_value`. -/
def splitRegexC (cs : List Char) : List (List Char) :=
  ((splitRegexAux cs).1) :: (splitRegexAux cs).2

/-- `ConfigurationPatcher._get_nested_value` on an already-split key list:
descend through dicts only; any missing key or non-dict intermediate returns
Python `None` (modelled as `Val.null`, which is also what the source returns). -/
def getKeys : Val → List String → Val
  | v, [] => v
  | .dict kvs, k :: ks =>
    match assocLookup kvs k with
    | some v => getKeys v ks
    | none => .null
  | _, _ :: _ => .null

/-- `ConfigurationPatcher._get_nested_value` (lines 116-124). -/
def getPath (data : Val) (path : String) : Val :=
  getKeys data ((splitDotC path.data).map (fun cs => (⟨cs⟩ : String)))

/-- `ConfigurationPatcher._set_nested_value` on an already-split key list.
`none` models a raised exception: every Python operation used by the walk
(`in`, `len`, `.append`, indexing, item assignment) fails with `TypeError` or
`AttributeError` when the current node is not the container kind the segment
expects, except that a plain-key step over a non-dict silently replaces it with
an empty dict (line 97-100) and a bracket step over a missing key creates a
fresh list (lines 91-92/108-109).  A bracket segment over an existing dict is
the one place the model over-approximates the error: Python raises when
`len(dict) <= index` (`.append` on a dict, `AttributeError`) and, for an
intermediate segment with `len(dict) > index`, raises `KeyError` on the
integer lookup `dict[index]` in a string-keyed document; but a *final* bracket
write with `len(dict) > index` succeeds by assigning the integer key `index`
next to the string keys — a value outside this string-keyed document model, so
it is mapped to `none`, and every theorem below keeps it out of its domain
(bracket-free paths, or a missing/list value at the bracket key).  When an
exception is raised, `_parse_yaml` propagates it and the target file is never
written, so the partially mutated in-memory state is unobservable and is not
modelled. -/
def setKeys : Val → List String → Val → Option Val
  | _, [], _ => none
  | .dict kvs, [k], v =>
    match parseBracket k with
    | none => some (.dict (assocSet kvs k v))
    | some (name, i) =>
      match assocLookup kvs name with
      | none =>
        some (.dict (assocSet kvs name (.list ((List.replicate (i + 1) Val.null).set i v))))
      | some (.list xs) =>
        some (.dict (assocSet kvs name
          (.list ((xs ++ List.replicate (i + 1 - xs.length) Val.null).set i v))))
      | some _ => none
  | .dict kvs, k :: k2 :: ks, v =>
    match parseBracket k with
    | none =>
      let sub :=
        match assocLookup kvs k with
        | some (.dict d) => Val.dict d
        | _ => Val.dict []
      match setKeys sub (k2 :: ks) v with
      | some sub' => some (.dict (assocSet kvs k sub'))
      | none => none
    | some (name, i) =>
      match assocLookup kvs name with
      | none =>
        let ys := List.replicate (i + 1) (Val.dict [])
        match setKeys (ys.getD i Val.null) (k2 :: ks) v with
        | some e' => some (.dict (assocSet kvs name (.list (ys.set i e'))))
        | none => none
      | some (.list xs) =>
        let ys := xs ++ List.replicate (i + 1 - xs.length) (Val.dict [])
        match setKeys (ys.getD i Val.null) (k2 :: ks) v with
        | some e' => some (.dict (assocSet kvs name (.list (ys.set i e'))))
        | none => none
      | some _ => none
  | _, _ :: _, _ => none

/-- `ConfigurationPatcher._set_nested_value` (lines 83-114). -/
def setPath (data : Val) (path : String) (v : Val) : Option Val :=
  setKeys data ((splitRegexC path.data).map (fun cs => (⟨cs⟩ : String))) v

/-- `".*." in match` (line 142). -/
def containsDotStarDot (s : String) : Bool := decide (".*.".data <:+: s.data)

/-- Find the leftmost occurrence of the separator `.*.`, returning the parts
before and after it. -/
def findStarSep : List Char → Option (List Char × List Char)
  | '.' :: '*' :: '.' :: rest => some ([], rest)
  | c :: rest =>
    match findStarSep rest with
    | some (a, b) => some (c :: a, b)
    | none => none
  | [] => none

/-- Python `str.split(".*.")`: repeated leftmost non-overlapping splitting.
`fuel` bounds the number of splits; each split strictly shortens the remainder. -/
def splitStarF (fuel : Nat) (cs : List Char) : List (List Char) :=
  match findStarSep cs with
  | none => [cs]
  | some (pre, post) =>
    match fuel with
    | 0 => [cs]
    | f + 1 => pre :: splitStarF f post

/-- `match.split(".*.")` (line 143). -/
def splitStar (s : String) : List String :=
  (splitStarF s.data.length s.data).map (fun cs => (⟨cs⟩ : String))

/-- The per-sibling rewrite decision of the wildcard branch (lines 147-151),
as a value transformer: a sibling's current value is replaced by the
specification map's entry exactly when it is a string that occurs among the
map's keys (Python `current_val in final_value` can only be true for string
keys), and is kept otherwise. -/
def wildcardTransform (spec : List (String × Val)) (cur : Val) : Val :=
  match cur with
  | .str c =>
    match assocLookup spec c with
    | some w => w
    | none => .str c
  | other => other

/-- The loop body of the wildcard branch of `_parse_yaml` (lines 145-151): for
one sibling key `k` under the prefix, read the current value at
`prefix.k.suffix` and overwrite it with the specification map's entry exactly
when the rule's final value is a dict holding the current value (necessarily a
string) as a key.  When the final value is a dict but the current value is a
list or a dict, the membership test `current_val in final_value` (line 148)
hashes the current value and raises `TypeError: unhashable type`, so the run
crashes: modelled as `none`.  A hashable non-string current value (`None`,
bool, int) is never a key of the string-keyed specification map, so the
membership test is false and the sibling is skipped. -/
def yamlWildcardStep (p s : String) (finalValue : Val) (d : Val) (k : String) :
    Option Val :=
  let nested := p ++ "." ++ k ++ "." ++ s
  match finalValue with
  | .dict spec =>
    match getPath d nested with
    | .str c =>
      match assocLookup spec c with
      | some w => setPath d nested w
      | none => some d
    | .list _ => none
    | .dict _ => none
    | _ => some d
  | _ => some d

/-- One rule application of `ConfigurationPatcher._parse_yaml` (lines 142-153),
after the rule's replacement value has already been expanded to `finalValue`
(lines 134-139 compute it via `_expand_variables` or the start-command
builder).  `none` models a raised exception: unpacking a split with more or
fewer than two parts (`ValueError`), `prefix in data` / `data[prefix]` on an
incompatible container (`TypeError`), or `current_val in final_value` on an
unhashable (list- or dict-valued) sibling value (`TypeError`, line 148). -/
def applyYamlRule (data : Val) (mt : String) (finalValue : Val) : Option Val :=
  if containsDotStarDot mt then
    match splitStar mt with
    | [p, s] =>
      match data with
      | .dict kvs =>
        match assocLookup kvs p with
        | some (.dict inner) =>
          List.foldlM (yamlWildcardStep p s finalValue) data (inner.map Prod.fst)
        | _ => some data
      | .list xs =>
        if xs.any (fun x => match x with | .str q => q == p | _ => false) then none
        else some (.list xs)
      | .str s2 => if p.data <:+: s2.data then none else some (.str s2)
      | _ => none
    | _ => none
  else
    setPath data mt finalValue

/-- Key extraction of `_parse_properties` (lines 166-176): `None` when the
stripped line is empty, a comment, or has no `=`; otherwise the stripped text
before the first `=`. -/
def lineKey (line : String) : Option String :=
  let st := pyStripC line.data
  match st with
  | [] => none
  | c :: _ =>
    if c = '#' ∨ st.contains '=' = false then none
    else some ⟨pyStripC (st.takeWhile (fun x => x != '='))⟩

/-- The `f"{key}={final_value}\n"` line built by `_parse_properties`. -/
def propsFormat (k : String) (fv : Val) : String := k ++ "=" ++ pyStr fv ++ "\n"

/-- Per-line behaviour of the scan loop of `_parse_properties` (lines 166-184):
the key processed by this line (if any) and the output line. -/
def processPropsLine (rules : List (String × Val)) (env : Env) (line : String) :
    Option String × String :=
  match lineKey line with
  | some k =>
    match assocLookup rules k with
    | some v => (some k, propsFormat k (expandVariables env v))
    | none => (none, line)
  | none => (none, line)

/-- One step of the scan loop of `_parse_properties`: thread the accumulated
(`processed_keys`, `output_lines`) pair through one line. -/
def propsStep (rules : List (String × Val)) (env : Env)
    (acc : List String × List String) (line : String) : List String × List String :=
  match processPropsLine rules env line with
  | (some k, out) => (acc.1 ++ [k], acc.2 ++ [out])
  | (none, out) => (acc.1, acc.2 ++ [out])

/-- `ConfigurationPatcher._parse_properties` (lines 156-194) on the in-memory
line list: scan every line accumulating processed keys and output lines, then
append a `key=value` line for every rule whose key was never processed, in rule
order. -/
def parseProps (lines : List String) (rules : List (String × Val)) (env : Env) :
    List String :=
  let r := lines.foldl (propsStep rules env) ([], [])
  r.2 ++
    ((rules.filter (fun kv => !(r.1.any (fun k' => k' == kv.1)))).map
      (fun kv => propsFormat kv.1 (expandVariables env kv.2)))

/-- First rule whose key is a literal prefix of the stripped line
(`line.strip().startswith(match_prefix)`, first match wins via `break`). -/
def firstMatchRule (rules : List (String × Val)) (stripped : String) :
    Option (String × Val) :=
  rules.find? (fun kv => kv.1.data.isPrefixOf stripped.data)

/-- `final_line if final_line.endswith("\n") else final_line + "\n"` (lines
211-213). -/
def ensureNL (s : String) : String :=
  if s.data.getLast? = some '\n' then s else s ++ "\n"

/-- Per-line behaviour of `_parse_file` (lines 206-218): replace the line with
the first matching rule's expanded value (with exactly one trailing newline
ensured), pass it through verbatim when no rule matches.  `none` models the
`AttributeError` raised by `.endswith` when the expanded value is not a
string. -/
def processFileLine (rules : List (String × Val)) (env : Env) (line : String) :
    Option String :=
  match firstMatchRule rules (pyStrip line) with
  | none => some line
  | some kv =>
    match expandVariables env kv.2 with
    | .str s => some (ensureNL s)
    | _ => none

/-- `ConfigurationPatcher._parse_file` (lines 196-221) on the in-memory line
list.  Note the scan loop is the whole body: no lines are ever appended for
rules that matched nothing. -/
def parseFileLines (lines : List String) (rules : List (String × Val)) (env : Env) :
    Option (List String) :=
  match lines with
  | [] => some []
  | l :: rest =>
    match processFileLine rules env l with
    | some l' =>
      match parseFileLines rest rules env with
      | some out => some (l' :: out)
      | none => none
    | none => none

/-- A path segment (or rule path piece) with none of the characters the two
splitters or the bracket parser treat specially: no dot, no brackets. -/
def SimpleKey (s : String) : Prop :=
  '.' ∉ s.data ∧ '[' ∉ s.data ∧ ']' ∉ s.data

instance (s : String) : Decidable (SimpleKey s) := by
  unfold SimpleKey; infer_instance

/-- The empty environment (no variables set), used by concrete instances. -/
def envNone : Env := fun _ => none

/-- A sample environment defining only `SERVER_PORT=25565`, used by concrete
instances of the Value Expander claims. -/
def envPort : Env := fun n => if n = "SERVER_PORT" then some "25565" else none

end StartHook

namespace StartHook

/-! ### Association-list lemmas (Python dict read/write) -/

theorem assocLookup_assocSet_self (kvs : List (String × Val)) (k : String) (v : Val) :
    assocLookup (assocSet kvs k v) k = some v := by
  induction kvs with
  | nil => simp [assocSet, assocLookup]
  | cons kv rest ih =>
    obtain ⟨k0, w⟩ := kv
    by_cases h : k0 = k
    · simp [assocSet, assocLookup, h]
    · simp [assocSet, assocLookup, h, ih]

theorem assocLookup_assocSet_ne (kvs : List (String × Val)) (k k' : String) (v : Val)
    (h : k' ≠ k) : assocLookup (assocSet kvs k v) k' = assocLookup kvs k' := by
  induction kvs with
  | nil => simp [assocSet, assocLookup, Ne.symm h]
  | cons kv rest ih =>
    obtain ⟨k0, w⟩ := kv
    by_cases h0 : k0 = k
    · have hk : k0 ≠ k' := by rw [h0]; exact Ne.symm h
      simp [assocSet, assocLookup, h0, hk, Ne.symm h]
    · by_cases h1 : k0 = k'
      · simp [assocSet, assocLookup, h0, h1, h]
      · simp [assocSet, assocLookup, h0, h1, ih]

theorem mem_of_assocLookup (kvs : List (String × Val)) (k : String) (v : Val)
    (h : assocLookup kvs k = some v) : (k, v) ∈ kvs := by
  induction kvs with
  | nil => simp [assocLookup] at h
  | cons kv rest ih =>
    obtain ⟨k0, w⟩ := kv
    by_cases h0 : k0 = k
    · subst h0
      simp [assocLookup] at h
      simp [h]
    · simp [assocLookup, h0] at h
      exact List.mem_cons_of_mem _ (ih h)

theorem assocLookup_exists_of_mem (kvs : List (String × Val)) (k : String) (v : Val)
    (h : (k, v) ∈ kvs) : ∃ w, assocLookup kvs k = some w := by
  induction kvs with
  | nil => simp at h
  | cons kv rest ih =>
    obtain ⟨k0, w0⟩ := kv
    by_cases h0 : k0 = k
    · exact ⟨w0, by simp [assocLookup, h0]⟩
    · rcases List.mem_cons.mp h with h1 | h1
      · exact absurd (congrArg Prod.fst h1).symm h0
      · rcases ih h1 with ⟨w, hw⟩
        exact ⟨w, by simp [assocLookup, h0, hw]⟩

theorem assocLookup_of_mem_nodup (kvs : List (String × Val)) (k : String) (v : Val)
    (h : (k, v) ∈ kvs) (hnd : (kvs.map Prod.fst).Nodup) : assocLookup kvs k = some v := by
  induction kvs with
  | nil => simp at h
  | cons kv rest ih =>
    obtain ⟨k0, w0⟩ := kv
    simp only [List.map_cons, List.nodup_cons] at hnd
    rcases List.mem_cons.mp h with h1 | h1
    · injection h1 with e1 e2
      subst e1
      subst e2
      simp [assocLookup]
    · have hk : k0 ≠ k := by
        intro e
        exact hnd.1 (e ▸ List.mem_map_of_mem Prod.fst h1)
      simp [assocLookup, hk, ih h1 hnd.2]

/-! ### takeWhile / dropWhile helpers -/

theorem takeWhile_append_all {p : Char → Bool} (a b : List Char)
    (h : ∀ c ∈ a, p c = true) : (a ++ b).takeWhile p = a ++ b.takeWhile p := by
  induction a with
  | nil => simp
  | cons c a ih =>
    have hc := h c (by simp)
    simp [List.takeWhile_cons, hc, ih (fun x hx => h x (by simp [hx]))]

theorem dropWhile_append_all {p : Char → Bool} (a b : List Char)
    (h : ∀ c ∈ a, p c = true) : (a ++ b).dropWhile p = b.dropWhile p := by
  induction a with
  | nil => simp
  | cons c a ih =>
    have hc := h c (by simp)
    simp [List.dropWhile_cons, hc, ih (fun x hx => h x (by simp [hx]))]

theorem contains_eq_false_of_not_mem {c : Char} {l : List Char} (h : c ∉ l) :
    l.contains c = false := by
  simp only [List.contains, List.elem_eq_mem]
  exact decide_eq_false h

/-! ### Splitter lemmas -/

theorem splitDotAux_no_dot (a : List Char) (h : '.' ∉ a) : splitDotAux a = (a, []) := by
  induction a with
  | nil => rfl
  | cons c rest ih =>
    have h1 : c ≠ '.' := fun e => h (by simp [e])
    have h2 : '.' ∉ rest := fun m => h (by simp [m])
    simp [splitDotAux, ih h2, h1]

theorem splitDotAux_append (a r : List Char) (h : '.' ∉ a) :
    splitDotAux (a ++ '.' :: r) = (a, (splitDotAux r).1 :: (splitDotAux r).2) := by
  induction a with
  | nil => simp [splitDotAux]
  | cons c a ih =>
    have h1 : c ≠ '.' := fun e => h (by simp [e])
    have h2 : '.' ∉ a := fun m => h (by simp [m])
    simp [splitDotAux, ih h2, h1]

theorem splitRegexAux_eq_splitDotAux (cs : List Char) (h1 : '[' ∉ cs) (h2 : ']' ∉ cs) :
    splitRegexAux cs = splitDotAux cs := by
  induction cs with
  | nil => rfl
  | cons c rest ih =>
    have hr1 : '[' ∉ rest := fun m => h1 (by simp [m])
    have hr2 : ']' ∉ rest := fun m => h2 (by simp [m])
    have hc : ((rest.takeWhile (fun x => x ≠ '[')).contains ']') = false := by
      apply contains_eq_false_of_not_mem
      intro m
      exact hr2 ((List.takeWhile_sublist _).subset m)
    simp only [splitRegexAux, splitDotAux, ih hr1 hr2, hc, and_true]

theorem splitDotC_chars (cs : List Char) :
    (∀ c ∈ (splitDotAux cs).1, c ∈ cs) ∧
      (∀ seg ∈ (splitDotAux cs).2, ∀ c ∈ seg, c ∈ cs) := by
  induction cs with
  | nil => simp [splitDotAux]
  | cons c rest ih =>
    by_cases h : c = '.'
    · simp only [splitDotAux, h, if_pos rfl]
      constructor
      · intro x hx
        simp at hx
      · intro seg hseg x hx
        rcases List.mem_cons.mp hseg with h1 | h1
        · exact List.mem_cons_of_mem _ (ih.1 x (h1 ▸ hx))
        · exact List.mem_cons_of_mem _ (ih.2 seg h1 x hx)
    · simp only [splitDotAux, h, if_false, if_neg h]
      constructor
      · intro x hx
        rcases List.mem_cons.mp hx with h1 | h1
        · simp [h1]
        · exact List.mem_cons_of_mem _ (ih.1 x h1)
      · intro seg hseg x hx
        exact List.mem_cons_of_mem _ (ih.2 seg hseg x hx)

/-! ### Bracket-segment lemmas -/

theorem parseBracket_eq_none_of_no_bracket (s : String) (h : '[' ∉ s.data) :
    parseBracket s = none := by
  unfold parseBracket parseBracketC
  by_cases he : (s.data.takeWhile isWordChar).isEmpty
  · simp [he]
  · simp only [he, if_false, Bool.false_eq_true]
    cases hd : s.data.dropWhile isWordChar with
    | nil => simp
    | cons c rest =>
      have hc : c ∈ s.data := by
        have : c ∈ s.data.dropWhile isWordChar := by simp [hd]
        exact (List.dropWhile_sublist _).subset this
      have : c ≠ '[' := fun e => h (e ▸ hc)
      simp [this]

/-! ### Nested-set/get core lemmas -/

theorem setKeys_plain_roundtrip (v : Val) :
    ∀ (ks : List String), ks ≠ [] → (∀ k ∈ ks, parseBracket k = none) →
      ∀ (kvs : List (String × Val)),
        ∃ kvs', setKeys (.dict kvs) ks v = some (.dict kvs') ∧
          getKeys (.dict kvs') ks = v := by
  intro ks
  induction ks with
  | nil => intro h; exact absurd rfl h
  | cons k ks ih =>
    intro _ hpb kvs
    cases ks with
    | nil =>
      refine ⟨assocSet kvs k v, ?_, ?_⟩
      · simp [setKeys, hpb k (by simp)]
      · simp [getKeys, assocLookup_assocSet_self]
    | cons k2 ks' =>
      have hk := hpb k (by simp)
      have hpb2 : ∀ x ∈ k2 :: ks', parseBracket x = none := fun x hx => hpb x (by simp [hx])
      rcases hl : assocLookup kvs k with _ | w
      · obtain ⟨sub', hset, hget⟩ := ih (by simp) hpb2 []
        refine ⟨assocSet kvs k (.dict sub'), ?_, ?_⟩
        · simp [setKeys, hk, hl, hset]
        · simp [getKeys, assocLookup_assocSet_self]
          simpa [getKeys] using hget
      · cases w with
        | dict d0 =>
          obtain ⟨sub', hset, hget⟩ := ih (by simp) hpb2 d0
          refine ⟨assocSet kvs k (.dict sub'), ?_, ?_⟩
          · simp [setKeys, hk, hl, hset]
          · simp [getKeys, assocLookup_assocSet_self]
            simpa [getKeys] using hget
        | null =>
          obtain ⟨sub', hset, hget⟩ := ih (by simp) hpb2 []
          refine ⟨assocSet kvs k (.dict sub'), ?_, ?_⟩
          · simp [setKeys, hk, hl, hset]
          · simp [getKeys, assocLookup_assocSet_self]
            simpa [getKeys] using hget
        | bool b =>
          obtain ⟨sub', hset, hget⟩ := ih (by simp) hpb2 []
          refine ⟨assocSet kvs k (.dict sub'), ?_, ?_⟩
          · simp [setKeys, hk, hl, hset]
          · simp [getKeys, assocLookup_assocSet_self]
            simpa [getKeys] using hget
        | int n =>
          obtain ⟨sub', hset, hget⟩ := ih (by simp) hpb2 []
          refine ⟨assocSet kvs k (.dict sub'), ?_, ?_⟩
          · simp [setKeys, hk, hl, hset]
          · simp [getKeys, assocLookup_assocSet_self]
            simpa [getKeys] using hget
        | str sv =>
          obtain ⟨sub', hset, hget⟩ := ih (by simp) hpb2 []
          refine ⟨assocSet kvs k (.dict sub'), ?_, ?_⟩
          · simp [setKeys, hk, hl, hset]
          · simp [getKeys, assocLookup_assocSet_self]
            simpa [getKeys] using hget
        | list xs =>
          obtain ⟨sub', hset, hget⟩ := ih (by simp) hpb2 []
          refine ⟨assocSet kvs k (.dict sub'), ?_, ?_⟩
          · simp [setKeys, hk, hl, hset]
          · simp [getKeys, assocLookup_assocSet_self]
            simpa [getKeys] using hget

theorem setKeys_sibling_frame (p k k' s : String) (kvs : List (String × Val)) (v : Val)
    (d' : Val) (hpp : parseBracket p = none) (hpk : parseBracket k = none)
    (hps : parseBracket s = none) (hne : k' ≠ k)
    (hset : setKeys (.dict kvs) [p, k, s] v = some d') :
    getKeys d' [p, k', s] = getKeys (.dict kvs) [p, k', s] := by
  have hlkne := fun (kvs0 : List (String × Val)) (w : Val) =>
    assocLookup_assocSet_ne kvs0 k k' w hne
  have hnekk : k ≠ k' := Ne.symm hne
  rcases hl : assocLookup kvs p with _ | w
  case none =>
    simp only [setKeys, hpp, hpk, hps, hl, assocLookup, Option.some.injEq] at hset
    subst hset
    simp [getKeys, assocLookup_assocSet_self, hlkne, hl, assocLookup, hnekk]
  case some =>
    cases w with
    | dict d0 =>
      rcases hl2 : assocLookup d0 k with _ | w2
      · simp only [setKeys, hpp, hpk, hps, hl, hl2, Option.some.injEq] at hset
        subst hset
        simp [getKeys, assocLookup_assocSet_self, hlkne, hl, hl2, hnekk]
      · cases w2 with
        | dict d1 =>
          simp only [setKeys, hpp, hpk, hps, hl, hl2, Option.some.injEq] at hset
          subst hset
          simp [getKeys, assocLookup_assocSet_self, hlkne, hl, hl2, hnekk]
        | null =>
          simp only [setKeys, hpp, hpk, hps, hl, hl2, Option.some.injEq] at hset
          subst hset
          simp [getKeys, assocLookup_assocSet_self, hlkne, hl, hl2, hnekk]
        | bool b =>
          simp only [setKeys, hpp, hpk, hps, hl, hl2, Option.some.injEq] at hset
          subst hset
          simp [getKeys, assocLookup_assocSet_self, hlkne, hl, hl2, hnekk]
        | int n =>
          simp only [setKeys, hpp, hpk, hps, hl, hl2, Option.some.injEq] at hset
          subst hset
          simp [getKeys, assocLookup_assocSet_self, hlkne, hl, hl2, hnekk]
        | str s2 =>
          simp only [setKeys, hpp, hpk, hps, hl, hl2, Option.some.injEq] at hset
          subst hset
          simp [getKeys, assocLookup_assocSet_self, hlkne, hl, hl2, hnekk]
        | list xs =>
          simp only [setKeys, hpp, hpk, hps, hl, hl2, Option.some.injEq] at hset
          subst hset
          simp [getKeys, assocLookup_assocSet_self, hlkne, hl, hl2, hnekk]
    | null =>
      simp only [setKeys, hpp, hpk, hps, hl, assocLookup, Option.some.injEq] at hset
      subst hset
      simp [getKeys, assocLookup_assocSet_self, hlkne, hl, assocLookup, hnekk]
    | bool b =>
      simp only [setKeys, hpp, hpk, hps, hl, assocLookup, Option.some.injEq] at hset
      subst hset
      simp [getKeys, assocLookup_assocSet_self, hlkne, hl, assocLookup, hnekk]
    | int n =>
      simp only [setKeys, hpp, hpk, hps, hl, assocLookup, Option.some.injEq] at hset
      subst hset
      simp [getKeys, assocLookup_assocSet_self, hlkne, hl, assocLookup, hnekk]
    | str s2 =>
      simp only [setKeys, hpp, hpk, hps, hl, assocLookup, Option.some.injEq] at hset
      subst hset
      simp [getKeys, assocLookup_assocSet_self, hlkne, hl, assocLookup, hnekk]
    | list xs =>
      simp only [setKeys, hpp, hpk, hps, hl, assocLookup, Option.some.injEq] at hset
      subst hset
      simp [getKeys, assocLookup_assocSet_self, hlkne, hl, assocLookup, hnekk]

/-! ### Path-splitting lemmas -/

theorem splitRegexC_eq_splitDotC (cs : List Char) (h1 : '[' ∉ cs) (h2 : ']' ∉ cs) :
    splitRegexC cs = splitDotC cs := by
  unfold splitRegexC splitDotC
  rw [splitRegexAux_eq_splitDotAux cs h1 h2]

theorem splitDotC_single (cs : List Char) (h : '.' ∉ cs) : splitDotC cs = [cs] := by
  unfold splitDotC
  rw [splitDotAux_no_dot cs h]

theorem splitDotC_three (p k s : String) (hp : '.' ∉ p.data) (hk : '.' ∉ k.data)
    (hs : '.' ∉ s.data) :
    splitDotC (p ++ "." ++ k ++ "." ++ s).data = [p.data, k.data, s.data] := by
  have hdata : (p ++ "." ++ k ++ "." ++ s).data
      = p.data ++ '.' :: (k.data ++ '.' :: s.data) := by
    simp [String.data_append]
  rw [hdata]
  unfold splitDotC
  rw [splitDotAux_append _ _ hp, splitDotAux_append _ _ hk, splitDotAux_no_dot _ hs]

theorem splitDotC_chars_sub (cs : List Char) :
    ∀ seg ∈ splitDotC cs, ∀ c ∈ seg, c ∈ cs := by
  intro seg hseg c hc
  unfold splitDotC at hseg
  rcases List.mem_cons.mp hseg with h | h
  · exact (splitDotC_chars cs).1 c (h ▸ hc)
  · exact (splitDotC_chars cs).2 seg h c hc

theorem getPath_three (d : Val) (p k s : String) (hp : '.' ∉ p.data) (hk : '.' ∉ k.data)
    (hs : '.' ∉ s.data) :
    getPath d (p ++ "." ++ k ++ "." ++ s) = getKeys d [p, k, s] := by
  unfold getPath
  rw [splitDotC_three p k s hp hk hs]
  rfl

theorem no_bracket_of_three (p k s : String) (hp : SimpleKey p) (hk : SimpleKey k)
    (hs : SimpleKey s) :
    '[' ∉ (p ++ "." ++ k ++ "." ++ s).data ∧ ']' ∉ (p ++ "." ++ k ++ "." ++ s).data := by
  have hdata : (p ++ "." ++ k ++ "." ++ s).data
      = p.data ++ '.' :: (k.data ++ '.' :: s.data) := by
    simp [String.data_append]
  rw [hdata]
  constructor
  · intro hm
    simp only [List.mem_append, List.mem_cons] at hm
    rcases hm with h | h | h | h | h
    · exact hp.2.1 h
    · exact absurd h (by decide)
    · exact hk.2.1 h
    · exact absurd h (by decide)
    · exact hs.2.1 h
  · intro hm
    simp only [List.mem_append, List.mem_cons] at hm
    rcases hm with h | h | h | h | h
    · exact hp.2.2 h
    · exact absurd h (by decide)
    · exact hk.2.2 h
    · exact absurd h (by decide)
    · exact hs.2.2 h

theorem setPath_three (d : Val) (p k s : String) (v : Val) (hp : SimpleKey p)
    (hk : SimpleKey k) (hs : SimpleKey s) :
    setPath d (p ++ "." ++ k ++ "." ++ s) v = setKeys d [p, k, s] v := by
  obtain ⟨h1, h2⟩ := no_bracket_of_three p k s hp hk hs
  unfold setPath
  rw [splitRegexC_eq_splitDotC _ h1 h2, splitDotC_three p k s hp.1 hk.1 hs.1]
  rfl

theorem parseBracket_of_simple (k : String) (h : SimpleKey k) : parseBracket k = none :=
  parseBracket_eq_none_of_no_bracket k h.2.1

/-- Shared core of C1 and C6: on a bracket-free path over a dict document the
setter never fails and the value written is read back by the getter. -/
theorem pathRoundTrip_noBracket (kvs : List (String × Val)) (p : String) (v : Val)
    (h1 : '[' ∉ p.data) (h2 : ']' ∉ p.data) :
    ∃ d', setPath (.dict kvs) p v = some d' ∧ getPath d' p = v := by
  have hset : setPath (.dict kvs) p v
      = setKeys (.dict kvs) ((splitDotC p.data).map (fun cs => (⟨cs⟩ : String))) v := by
    unfold setPath
    rw [splitRegexC_eq_splitDotC _ h1 h2]
  have hne : (splitDotC p.data).map (fun cs => (⟨cs⟩ : String)) ≠ [] := by
    simp [splitDotC]
  have hpb : ∀ k ∈ (splitDotC p.data).map (fun cs => (⟨cs⟩ : String)),
      parseBracket k = none := by
    intro k hk
    rcases List.mem_map.mp hk with ⟨cs, hcs, rfl⟩
    apply parseBracket_eq_none_of_no_bracket
    intro hm
    exact h1 (splitDotC_chars_sub p.data cs hcs '[' hm)
  obtain ⟨kvs', hs, hg⟩ := setKeys_plain_roundtrip v _ hne hpb kvs
  exact ⟨.dict kvs', by rw [hset]; exact hs, hg⟩

/-! ### Array-padding lemmas -/

theorem replicate_set_last {α : Type} (xs : List α) (fill : α) (i : Nat) (v : α)
    (h : xs.length ≤ i) :
    (xs ++ List.replicate (i + 1 - xs.length) fill).set i v
      = xs ++ (List.replicate (i - xs.length) fill ++ [v]) := by
  induction xs generalizing i with
  | nil =>
    simp only [List.nil_append, List.length_nil, Nat.sub_zero]
    induction i with
    | zero => simp
    | succ n ihn =>
      rw [List.replicate_succ]
      simp only [List.set_cons_succ]
      rw [ihn (by simp), List.replicate_succ]
      simp
  | cons x xs ih =>
    cases i with
    | zero => simp at h
    | succ n =>
      have h' : xs.length ≤ n := by simpa using h
      simp only [List.cons_append, List.length_cons, List.set_cons_succ]
      have e : n + 1 + 1 - (xs.length + 1) = n + 1 - xs.length := by omega
      have e2 : n + 1 - (xs.length + 1) = n - xs.length := by omega
      rw [e, e2, ih n h']

theorem getD_pad {α : Type} (xs : List α) (fill dflt : α) (i : Nat) (h : xs.length ≤ i) :
    (xs ++ List.replicate (i + 1 - xs.length) fill).getD i dflt = fill := by
  rw [List.getD_eq_getElem?_getD, List.getElem?_append]
  have hlt : ¬ i < xs.length := by omega
  have hlt2 : i - xs.length < i + 1 - xs.length := by omega
  simp [hlt, List.getElem?_replicate, hlt2]

/-! ### Claim C1 -/

/-- C1 (amended): for every dict document `d`, every path `p` containing no
bracket characters, and every value `v`, `setPath d p v` succeeds and
`getPath` at the same path returns exactly `v`.  The unamended claim also
covered bracket-indexed paths such as `a[2]`, but `_get_nested_value` splits
only on dots and treats every segment as a plain map key, so a value written
through a bracket segment is not read back (see the counterexample). -/
theorem C1_roundtrip_bracket_free (kvs : List (String × Val)) (p : String) (v : Val)
    (h1 : '[' ∉ p.data) (h2 : ']' ∉ p.data) :
    ∃ d', setPath (.dict kvs) p v = some d' ∧ getPath d' p = v :=
  pathRoundTrip_noBracket kvs p v h1 h2

/-- C1 witness: the round trip at the concrete document `{}`, path `a.b`,
value `7`. -/
theorem C1_roundtrip_witness :
    ∃ d', setPath (.dict []) "a.b" (.int 7) = some d' ∧ getPath d' "a.b" = .int 7 :=
  C1_roundtrip_bracket_free [] "a.b" (.int 7) (by decide) (by decide)

/-- C1 counterexample: with `d = {}`, `p = "a[2]"` and `v = "x"`, the setter
produces `{a: [null, null, "x"]}` but the getter returns `None` (the key
`"a[2]"` is absent as a literal map key), so `getPath (setPath d p v) p ≠ v`
for this bracket-indexed path. -/
theorem C1_bracket_counterexample :
    setPath (.dict []) "a[2]" (.str "x")
        = some (.dict [("a", .list [.null, .null, .str "x"])])
      ∧ getPath (.dict [("a", .list [.null, .null, .str "x"])]) "a[2]" = .null
      ∧ Val.null ≠ Val.str "x" :=
  ⟨rfl, rfl, fun h => Val.noConfusion h⟩

/-! ### Claim C6 -/

/-- C6 (amended): `setPath` through an intermediate scalar never fails on a
path of plain (bracket-free) segments: the scalar is replaced by a fresh empty
map and the walk continues, last writer wins (second conjunct shows the
replacement concretely).  The unamended claim also promised a fresh empty
array for bracket-indexed segments, but for `key[i]` segments the code only
creates a list when `key` is absent; an existing non-list value at `key`
makes `len(...)`/`.append`/item assignment raise (modelled as `none`, see the
counterexample). -/
theorem C6_scalar_intermediate_plain :
    (∀ (kvs : List (String × Val)) (p : String) (v : Val),
        '[' ∉ p.data → ']' ∉ p.data → (setPath (.dict kvs) p v).isSome = true)
      ∧ setPath (.dict [("a", .str "scalar")]) "a.b" (.int 7)
          = some (.dict [("a", .dict [("b", .int 7)])]) := by
  constructor
  · intro kvs p v h1 h2
    obtain ⟨d', hs, _⟩ := pathRoundTrip_noBracket kvs p v h1 h2
    rw [hs]
    rfl
  · rfl

/-- C6 witness: writing through the scalar at `a` in `{a: 5}` via the plain
path `a.b.c` succeeds. -/
theorem C6_scalar_witness :
    (setPath (.dict [("a", .int 5)]) "a.b.c" (.str "v")).isSome = true :=
  C6_scalar_intermediate_plain.1 [("a", .int 5)] "a.b.c" (.str "v") (by decide) (by decide)

/-- C6 counterexample: writing through a bracket-indexed segment whose key
holds the scalar `5` raises (`len(5)` is a `TypeError`), both when the
bracket segment is final and when it is intermediate — the scalar is not
replaced by a fresh array. -/
theorem C6_bracket_scalar_counterexample :
    setPath (.dict [("a", .int 5)]) "a[0]" (.str "x") = none
      ∧ setPath (.dict [("a", .int 5)]) "a[0].b" (.str "x") = none :=
  ⟨rfl, rfl⟩

/-! ### Claim C7 -/

/-- C7: array auto-vivification.  First conjunct: `setPath({}, "a[2]", "x")`
yields `{a: [null, null, "x"]}`.  Second conjunct: for a final bracket
segment whose target array is shorter than `index+1`, the array is extended
with `null` placeholders and the value lands at the index (and the write
returns `some`, never an error).  Third conjunct: for an intermediate bracket
segment the gap is filled with empty-map placeholders and the walk continues
into the element at the index. -/
theorem C7_array_extension :
    setPath (.dict []) "a[2]" (.str "x")
        = some (.dict [("a", .list [.null, .null, .str "x"])])
      ∧ (∀ (kvs : List (String × Val)) (seg name : String) (i : Nat) (xs : List Val)
            (v : Val),
          parseBracket seg = some (name, i) → assocLookup kvs name = some (.list xs) →
          xs.length ≤ i →
          setKeys (.dict kvs) [seg] v
            = some (.dict (assocSet kvs name
                (.list (xs ++ (List.replicate (i - xs.length) Val.null ++ [v]))))))
      ∧ (∀ (kvs : List (String × Val)) (seg name k2 : String) (i : Nat) (xs : List Val)
            (v : Val),
          parseBracket seg = some (name, i) → parseBracket k2 = none →
          assocLookup kvs name = some (.list xs) → xs.length ≤ i →
          setKeys (.dict kvs) [seg, k2] v
            = some (.dict (assocSet kvs name
                (.list (xs ++ (List.replicate (i - xs.length) (Val.dict [])
                  ++ [Val.dict [(k2, v)]])))))) := by
  refine ⟨rfl, ?_, ?_⟩
  · intro kvs seg name i xs v hseg hl hlen
    simp only [setKeys, hseg, hl]
    rw [replicate_set_last xs Val.null i v hlen]
  · intro kvs seg name k2 i xs v hseg hk2 hl hlen
    simp only [setKeys, hseg, hk2, hl]
    rw [getD_pad xs (Val.dict []) Val.null i hlen]
    simp only [setKeys, hk2]
    rw [replicate_set_last xs (Val.dict []) i (Val.dict (assocSet [] k2 v)) hlen]
    simp [assocSet]

/-- C7 witness: extending the existing one-element array at `a` to index 3
with null padding, and the intermediate variant on a fresh two-step path. -/
theorem C7_array_witness :
    setKeys (.dict [("a", .list [.int 1])]) ["a[3]"] (.str "x")
        = some (.dict [("a", .list [.int 1, .null, .null, .str "x"])])
      ∧ setKeys (.dict [("b", .list [])]) ["b[1]", "c"] (.int 9)
          = some (.dict [("b", .list [.dict [], .dict [("c", .int 9)]])]) :=
  ⟨C7_array_extension.2.1 [("a", .list [.int 1])] "a[3]" "a" 3 [.int 1] (.str "x")
      (by decide) rfl (by decide),
    C7_array_extension.2.2 [("b", .list [])] "b[1]" "b" "c" 1 [] (.int 9)
      (by decide) (by decide) rfl (by decide)⟩

/-! ### Placeholder-substitution lemmas -/

theorem substF_cons_none (env : Env) (f : Nat) (c : Char) (cs : List Char)
    (hm : matchPlaceholder (c :: cs) = none) :
    substF env (f + 1) (c :: cs) = c :: substF env f cs := by
  simp only [substF, hm]

theorem substF_cons_some (env : Env) (f : Nat) (c : Char) (cs n r : List Char)
    (hm : matchPlaceholder (c :: cs) = some (n, r)) :
    substF env (f + 1) (c :: cs) = envReplacement env n ++ substF env f r := by
  simp only [substF, hm]

theorem matchPlaceholder_length (l n r : List Char)
    (h : matchPlaceholder l = some (n, r)) : r.length < l.length := by
  unfold matchPlaceholder at h
  split at h
  · rename_i rest
    by_cases he : (rest.takeWhile isWordChar).isEmpty
    · simp [he] at h
    · simp only [he, if_false, Bool.false_eq_true] at h
      split at h
      · rename_i r3 heq
        simp only [Option.some.injEq, Prod.mk.injEq] at h
        obtain ⟨h1, h2⟩ := h
        subst h2
        have hle : (rest.dropWhile isWordChar).length ≤ rest.length :=
          (List.dropWhile_sublist _).length_le
        rw [heq] at hle
        simp only [List.length_cons, List.length] at hle ⊢
        omega
      · exact absurd h (by simp)
  · exact absurd h (by simp)

theorem matchPlaceholder_cons_ne (c : Char) (l : List Char) (h : c ≠ '{') :
    matchPlaceholder (c :: l) = none := by
  unfold matchPlaceholder
  split
  · rename_i rest heq
    injection heq with hc _
    exact absurd hc h
  · rfl

theorem substF_fuel_irrel (env : Env) :
    ∀ f1 f2 cs, cs.length ≤ f1 → cs.length ≤ f2 → substF env f1 cs = substF env f2 cs := by
  intro f1
  induction f1 with
  | zero =>
    intro f2 cs h1 _
    have : cs = [] := List.length_eq_zero.mp (Nat.le_zero.mp h1)
    subst this
    cases f2 <;> rfl
  | succ f1' ih =>
    intro f2 cs h1 h2
    cases cs with
    | nil => cases f2 <;> rfl
    | cons c cs' =>
      cases f2 with
      | zero => simp at h2
      | succ f2' =>
        cases hm : matchPlaceholder (c :: cs') with
        | none =>
          have b1 : cs'.length ≤ f1' := by simpa using h1
          have b2 : cs'.length ≤ f2' := by simpa using h2
          simp only [substF, hm]
          rw [ih f2' cs' b1 b2]
        | some pr =>
          obtain ⟨n, r⟩ := pr
          have hlt := matchPlaceholder_length _ _ _ hm
          simp only [List.length_cons] at hlt h1 h2
          have b1 : r.length ≤ f1' := by omega
          have b2 : r.length ≤ f2' := by omega
          simp only [substF, hm]
          rw [ih f2' r b1 b2]

theorem matchPlaceholder_at_placeholder (name suf : List Char) (hname : name ≠ [])
    (hword : ∀ c ∈ name, isWordChar c = true) :
    matchPlaceholder ('{' :: '{' :: (name ++ '}' :: '}' :: suf)) = some (name, suf) := by
  have hne : name.isEmpty = false := by
    cases name with
    | nil => exact absurd rfl hname
    | cons a b => rfl
  have htw : (name ++ '}' :: '}' :: suf).takeWhile isWordChar = name := by
    rw [takeWhile_append_all _ _ hword]
    simp [List.takeWhile_cons, show isWordChar '}' = false from rfl]
  have hdw : (name ++ '}' :: '}' :: suf).dropWhile isWordChar = '}' :: '}' :: suf := by
    rw [dropWhile_append_all _ _ hword]
    simp [List.dropWhile_cons, show isWordChar '}' = false from rfl]
  simp only [matchPlaceholder, htw, hdw, hne]
  rfl

theorem substF_undefined_marker (env : Env) (name suf : List Char) (hname : name ≠ [])
    (hword : ∀ c ∈ name, isWordChar c = true) (henv : env ⟨name⟩ = none) :
    ∀ (pre : List Char), '{' ∉ pre →
      ∀ f, (pre ++ '{' :: '{' :: (name ++ '}' :: '}' :: suf)).length ≤ f →
        substF env f (pre ++ '{' :: '{' :: (name ++ '}' :: '}' :: suf))
          = pre ++ ("\x7b\x7b_UNDEFINED_".data ++ name ++ "\x7d\x7d".data)
              ++ substF env suf.length suf := by
  intro pre
  induction pre with
  | nil =>
    intro _ f hf
    cases f with
    | zero => simp at hf
    | succ f' =>
      simp only [List.nil_append] at hf ⊢
      have hm := matchPlaceholder_at_placeholder name suf hname hword
      simp only [substF, hm, envReplacement, henv]
      have hb : suf.length ≤ f' := by
        simp only [List.length_cons, List.length_append] at hf
        omega
      rw [substF_fuel_irrel env f' suf.length suf hb (le_refl _)]
  | cons c pre' ih =>
    intro hpre f hf
    cases f with
    | zero => simp at hf
    | succ f' =>
      have hc : c ≠ '{' := fun e => hpre (by simp [e])
      have hm := matchPlaceholder_cons_ne c
        (pre' ++ '{' :: '{' :: (name ++ '}' :: '}' :: suf)) hc
      rw [List.cons_append, substF_cons_none env f' c _ hm]
      have hb : (pre' ++ '{' :: '{' :: (name ++ '}' :: '}' :: suf)).length ≤ f' := by
        simp only [List.length_append, List.length_cons] at hf ⊢
        omega
      rw [ih (fun m => hpre (by simp [m])) f' hb]
      simp

/-! ### Claim C5 -/

/-- C5: a placeholder whose name is not defined in the environment is replaced
by the visibly-tagged undefined marker `{{_UNDEFINED_name}}` and scanning
continues after the placeholder; the expander is a total function, so no
error is ever raised.  Stated for any string shaped
`pre ++ "{{name}}" ++ suf` whose prefix contains no `{`. -/
theorem C5_undefined_placeholder_marker (env : Env) (pre name suf : String)
    (hpre : '{' ∉ pre.data) (hname : name.data ≠ [])
    (hword : ∀ c ∈ name.data, isWordChar c = true) (henv : env name = none) :
    substStr env (pre ++ "\x7b\x7b" ++ name ++ "\x7d\x7d" ++ suf)
      = pre ++ "\x7b\x7b_UNDEFINED_" ++ name ++ "\x7d\x7d" ++ substStr env suf := by
  apply String.ext
  have hdata : (pre ++ "\x7b\x7b" ++ name ++ "\x7d\x7d" ++ suf).data
      = pre.data ++ '{' :: '{' :: (name.data ++ '}' :: '}' :: suf.data) := by
    simp [String.data_append]
  have lhs : (substStr env (pre ++ "\x7b\x7b" ++ name ++ "\x7d\x7d" ++ suf)).data
      = substF env (pre.data ++ '{' :: '{' :: (name.data ++ '}' :: '}' :: suf.data)).length
          (pre.data ++ '{' :: '{' :: (name.data ++ '}' :: '}' :: suf.data)) := by
    unfold substStr
    rw [hdata]
  rw [lhs,
    substF_undefined_marker env name.data suf.data hname hword henv pre.data hpre _
      (le_refl _)]
  simp [String.data_append, substStr]

/-- C5 witness: expanding `x{{PORT}}` in an empty environment produces the
marker string (and then string coercion leaves it a string). -/
theorem C5_marker_witness :
    substStr envNone "x\x7b\x7bPORT\x7d\x7d" = "x\x7b\x7b_UNDEFINED_PORT\x7d\x7d" := by
  have h := C5_undefined_placeholder_marker envNone "x" "PORT" "" (by decide) (by decide)
    (by decide) rfl
  simpa using h

/-! ### Claim C4 -/

/-- C4: type coercion is a totally ordered sequence of checks on the whole
string: case-insensitive true/false first, then all-decimal-digits (with
leading zeros lost by numeric conversion), otherwise the string unchanged;
it applies only to whole strings after substitution, never to substrings, as
the concrete `server-port={{SERVER_PORT}}` versus `{{SERVER_PORT}}` pair
shows. -/
theorem C4_type_coercion :
    (∀ s : String, strLower s = "true" → toNativeType (.str s) = .bool true)
      ∧ (∀ s : String, strLower s = "false" → toNativeType (.str s) = .bool false)
      ∧ (∀ s : String, strLower s ≠ "true" → strLower s ≠ "false" →
          isDigitsC (strLower s).data = true →
          toNativeType (.str s) = .int (natOfDigitsC (strLower s).data))
      ∧ (∀ s : String, strLower s ≠ "true" → strLower s ≠ "false" →
          isDigitsC (strLower s).data = false → toNativeType (.str s) = .str s)
      ∧ toNativeType (.str "007") = .int 7
      ∧ toNativeType (.str "server-port=25565") = .str "server-port=25565"
      ∧ toNativeType (.str "25565") = .int 25565
      ∧ expandVariables envPort (.str "server-port=\x7b\x7bSERVER_PORT\x7d\x7d")
          = .str "server-port=25565"
      ∧ expandVariables envPort (.str "\x7b\x7bSERVER_PORT\x7d\x7d") = .int 25565 := by
  refine ⟨?_, ?_, ?_, ?_, rfl, rfl, rfl, rfl, rfl⟩
  · intro s h
    simp [toNativeType, h]
  · intro s h
    simp [toNativeType, h]
  · intro s h1 h2 h3
    simp [toNativeType, h1, h2, h3]
  · intro s h1 h2 h3
    simp [toNativeType, h1, h2, h3]

/-- C4 witness: the branch lemmas applied at concrete strings. -/
theorem C4_coercion_witness :
    toNativeType (.str "TRUE") = .bool true ∧ toNativeType (.str "042") = .int 42 := by
  constructor
  · exact C4_type_coercion.1 "TRUE" (by decide)
  · exact C4_type_coercion.2.2.1 "042" (by decide) (by decide) (by decide)

/-! ### Generic line adapter lemmas -/

theorem parseFileLines_forall2 (rules : List (String × Val)) (env : Env) :
    ∀ (lines out : List String), parseFileLines lines rules env = some out →
      List.Forall₂ (fun l o => processFileLine rules env l = some o) lines out := by
  intro lines
  induction lines with
  | nil =>
    intro out h
    simp only [parseFileLines, Option.some.injEq] at h
    subst h
    exact List.Forall₂.nil
  | cons l rest ih =>
    intro out h
    simp only [parseFileLines] at h
    cases hl : processFileLine rules env l with
    | none => rw [hl] at h; exact absurd h (by simp)
    | some l' =>
      rw [hl] at h
      cases hr : parseFileLines rest rules env with
      | none => rw [hr] at h; exact absurd h (by simp)
      | some o2 =>
        rw [hr] at h
        simp only [Option.some.injEq] at h
        subst h
        exact List.Forall₂.cons hl (ih o2 hr)

theorem processFileLine_of_no_match (rules : List (String × Val)) (env : Env) (l : String)
    (h : firstMatchRule rules (pyStrip l) = none) :
    processFileLine rules env l = some l := by
  simp [processFileLine, h]

theorem parseFileLines_of_all_stable (rules : List (String × Val)) (env : Env) :
    ∀ (L : List String), (∀ l ∈ L, processFileLine rules env l = some l) →
      parseFileLines L rules env = some L := by
  intro L
  induction L with
  | nil => intro _; rfl
  | cons l rest ih =>
    intro h
    simp only [parseFileLines, h l (by simp), ih (fun x hx => h x (by simp [hx]))]

theorem forall2_mem_right {α β : Type} {R : α → β → Prop} :
    ∀ {as : List α} {bs : List β}, List.Forall₂ R as bs → ∀ b ∈ bs, ∃ a ∈ as, R a b := by
  intro as bs h
  induction h with
  | nil => intro b hb; simp at hb
  | cons hr _ ih =>
    intro b hb
    rcases List.mem_cons.mp hb with h1 | h1
    · exact ⟨_, by simp, h1 ▸ hr⟩
    · rcases ih b h1 with ⟨a, ha, hab⟩
      exact ⟨a, by simp [ha], hab⟩

theorem processFileLine_stable (rules : List (String × Val)) (env : Env)
    (hfix : ∀ kv ∈ rules, ∀ s, expandVariables env kv.2 = .str s →
      processFileLine rules env (ensureNL s) = some (ensureNL s))
    (l L : String) (h : processFileLine rules env l = some L) :
    processFileLine rules env L = some L := by
  unfold processFileLine at h
  cases hfm : firstMatchRule rules (pyStrip l) with
  | none =>
    rw [hfm] at h
    simp only [Option.some.injEq] at h
    subst h
    unfold processFileLine
    rw [hfm]
  | some kv =>
    cases hex : expandVariables env kv.2 with
    | str s =>
      simp only [hfm, hex, Option.some.injEq] at h
      subst h
      exact hfix kv (List.mem_of_find?_eq_some hfm) s hex
    | null => simp [hfm, hex] at h
    | bool b => simp [hfm, hex] at h
    | int n => simp [hfm, hex] at h
    | list xs => simp [hfm, hex] at h
    | dict kvs => simp [hfm, hex] at h

/-! ### Claim C2 -/

/-- C2 (amended): in the generic line adapter, lines whose trimmed content
matches no rule prefix pass through verbatim, and the output has exactly one
line per input line — in particular, rule keys that matched no line are NOT
appended to the file (the scan loop is the whole body of `_parse_file`).
The unamended claim asserted that unmatched rule keys are appended as
trailing lines; the counterexample shows they are silently dropped. -/
theorem C2_passthrough_no_append (lines : List String) (rules : List (String × Val))
    (env : Env) (out : List String) (h : parseFileLines lines rules env = some out) :
    out.length = lines.length ∧
      List.Forall₂ (fun l o => processFileLine rules env l = some o ∧
        (firstMatchRule rules (pyStrip l) = none → o = l)) lines out := by
  have hf := parseFileLines_forall2 rules env lines out h
  constructor
  · exact hf.length_eq.symm
  · apply List.Forall₂.imp ?_ hf
    intro l o hp
    refine ⟨hp, fun hn => ?_⟩
    rw [processFileLine_of_no_match rules env l hn] at hp
    exact (Option.some.injEq _ _ ▸ hp).symm

/-- C2 witness: a one-line file whose line matches no rule passes through
unchanged (and nothing is appended). -/
theorem C2_passthrough_witness :
    (["a\n"] : List String).length = (["a\n"] : List String).length ∧
      List.Forall₂ (fun l o => processFileLine [("x", Val.str "y")] envNone l = some o ∧
        (firstMatchRule [("x", Val.str "y")] (pyStrip l) = none → o = l))
        ["a\n"] ["a\n"] :=
  C2_passthrough_no_append ["a\n"] [("x", Val.str "y")] envNone ["a\n"] rfl

/-- C2 counterexample: rule `motd -> motd=new` matches no line of `["x\n"]`,
and the output is exactly `["x\n"]` — the claimed trailing line
`motd=new\n` is not appended. -/
theorem C2_no_append_counterexample :
    parseFileLines ["x\n"] [("motd", Val.str "motd=new")] envNone = some ["x\n"]
      ∧ (some ["x\n"] : Option (List String)) ≠ some ["x\n", "motd=new\n"] :=
  ⟨rfl, by decide⟩

/-! ### Properties-adapter lemmas -/

theorem dropWhile_eq_self_of_pyStrip (l : List Char) (h : pyStripC l = l) :
    l.dropWhile isPyWs = l := by
  have h1 : (l.dropWhile isPyWs).length ≤ l.length := (List.dropWhile_sublist _).length_le
  have h2 : (pyStripC l).length ≤ (l.dropWhile isPyWs).length := by
    unfold pyStripC
    rw [List.length_reverse]
    calc (List.dropWhile isPyWs (l.dropWhile isPyWs).reverse).length
        ≤ (l.dropWhile isPyWs).reverse.length := (List.dropWhile_sublist _).length_le
      _ = (l.dropWhile isPyWs).length := List.length_reverse _
  rw [h] at h2
  exact (List.dropWhile_sublist _).eq_of_length (le_antisymm h1 h2)

theorem head_not_ws_of_pyStrip (c : Char) (k' : List Char)
    (h : pyStripC (c :: k') = c :: k') : isPyWs c = false := by
  have hd := dropWhile_eq_self_of_pyStrip _ h
  by_cases hc : isPyWs c = true
  · rw [List.dropWhile_cons, if_pos hc] at hd
    have hle := (List.dropWhile_sublist (l := k') isPyWs).length_le
    rw [hd] at hle
    simp at hle
  · revert hc
    cases isPyWs c <;> simp

theorem dropWhile_append_split (p : Char → Bool) :
    ∀ (A rest : List Char), (A ++ rest).dropWhile p
      = if (A.dropWhile p).isEmpty then rest.dropWhile p else A.dropWhile p ++ rest := by
  intro A
  induction A with
  | nil => intro rest; simp
  | cons a A ih =>
    intro rest
    by_cases hp : p a = true
    · simp only [List.cons_append, List.dropWhile_cons, hp, if_true]
      exact ih rest
    · have hp' : p a = false := by revert hp; cases p a <;> simp
      simp [List.dropWhile_cons, hp']

theorem contains_eq_true_of_mem {c : Char} {l : List Char} (h : c ∈ l) :
    l.contains c = true := by
  simp only [List.contains, List.elem_eq_mem]
  exact decide_eq_true h

theorem pyStripC_key_eq_line (kd w : List Char) (htrim : pyStripC kd = kd) :
    pyStripC (kd ++ '=' :: (w ++ ['\n']))
      = kd ++ '=' :: (List.dropWhile isPyWs w.reverse).reverse := by
  unfold pyStripC
  have hleft : (kd ++ '=' :: (w ++ ['\n'])).dropWhile isPyWs
      = kd ++ '=' :: (w ++ ['\n']) := by
    cases kd with
    | nil => simp [List.dropWhile_cons, show isPyWs '=' = false from rfl]
    | cons c k' =>
      have hc := head_not_ws_of_pyStrip c k' htrim
      simp [List.dropWhile_cons, hc]
  rw [hleft]
  have hrev : (kd ++ '=' :: (w ++ ['\n'])).reverse
      = '\n' :: (w.reverse ++ '=' :: kd.reverse) := by
    simp
  rw [hrev, List.dropWhile_cons]
  rw [if_pos (show isPyWs '\n' = true from rfl)]
  rw [dropWhile_append_split isPyWs w.reverse ('=' :: kd.reverse)]
  by_cases hW : (w.reverse.dropWhile isPyWs).isEmpty
  · rw [if_pos hW]
    rw [List.dropWhile_cons, if_neg (by simp [show isPyWs '=' = false from rfl])]
    have hnil : w.reverse.dropWhile isPyWs = [] := List.isEmpty_iff.mp hW
    rw [hnil]
    simp
  · rw [if_neg hW]
    simp

theorem lineKey_propsFormat (k : String) (fv : Val) (htrim : pyStrip k = k)
    (heq : '=' ∉ k.data) (hhash : k.data.head? ≠ some '#') :
    lineKey (propsFormat k fv) = some k := by
  have htrimC : pyStripC k.data = k.data := congrArg String.data htrim
  have hdata : (propsFormat k fv).data = k.data ++ '=' :: ((pyStr fv).data ++ ['\n']) := by
    simp [propsFormat, String.data_append]
  unfold lineKey
  rw [hdata, pyStripC_key_eq_line k.data (pyStr fv).data htrimC]
  cases hk : k.data with
  | nil =>
    have hkstr : k = "" := String.ext (by rw [hk])
    subst hkstr
    simp only [List.nil_append]
    have hcont : ('=' :: (List.dropWhile isPyWs (pyStr fv).data.reverse).reverse).contains '='
        = true := contains_eq_true_of_mem (List.mem_cons_self _ _)
    simp [hcont, List.takeWhile_cons, pyStripC]
  | cons c k' =>
    rw [hk] at htrimC heq
    have hc : c ≠ '#' := fun e => hhash (by rw [hk, e]; rfl)
    have hcont : ((c :: k') ++ '=' :: (List.dropWhile isPyWs (pyStr fv).data.reverse).reverse).contains '='
        = true := contains_eq_true_of_mem (List.mem_append_right _ (List.mem_cons_self _ _))
    have htake : ((c :: k') ++ '=' :: (List.dropWhile isPyWs (pyStr fv).data.reverse).reverse).takeWhile
        (fun x => x != '=') = c :: k' := by
      rw [takeWhile_append_all (c :: k') _
        (fun x hx => by simp only [bne_iff_ne, ne_eq]; exact fun e => heq (e ▸ hx))]
      simp [List.takeWhile_cons]
    simp only [List.cons_append] at hcont htake ⊢
    simp only [hcont, htake]
    simp only [hc, false_or, Bool.true_eq_false, or_false, if_false]
    rw [htrimC]
    exact congrArg some (String.ext hk.symm)

theorem foldl_propsStep (rules : List (String × Val)) (env : Env) :
    ∀ (lines : List String) (acc : List String × List String),
      lines.foldl (propsStep rules env) acc
        = (acc.1 ++ lines.filterMap (fun l => (processPropsLine rules env l).1),
           acc.2 ++ lines.map (fun l => (processPropsLine rules env l).2)) := by
  intro lines
  induction lines with
  | nil => intro acc; simp
  | cons l rest ih =>
    intro acc
    rw [List.foldl_cons, ih]
    rcases hp : processPropsLine rules env l with ⟨fst, out⟩
    cases fst with
    | some k =>
      simp [propsStep, hp, List.filterMap_cons]
    | none =>
      simp [propsStep, hp, List.filterMap_cons]

theorem parseProps_eq (lines : List String) (rules : List (String × Val)) (env : Env) :
    parseProps lines rules env
      = lines.map (fun l => (processPropsLine rules env l).2)
        ++ ((rules.filter (fun kv =>
            !((lines.filterMap (fun l => (processPropsLine rules env l).1)).any
              (fun k' => k' == kv.1)))).map
          (fun kv => propsFormat kv.1 (expandVariables env kv.2))) := by
  unfold parseProps
  rw [foldl_propsStep]
  simp

theorem processPropsLine_no_key (rules : List (String × Val)) (env : Env) (l : String)
    (h : lineKey l = none) : processPropsLine rules env l = (none, l) := by
  simp [processPropsLine, h]

theorem processPropsLine_no_rule (rules : List (String × Val)) (env : Env) (l : String)
    (k : String) (hk : lineKey l = some k) (hv : assocLookup rules k = none) :
    processPropsLine rules env l = (none, l) := by
  simp [processPropsLine, hk, hv]

theorem processPropsLine_hit (rules : List (String × Val)) (env : Env) (l : String)
    (k : String) (v : Val) (hk : lineKey l = some k) (hv : assocLookup rules k = some v) :
    processPropsLine rules env l = (some k, propsFormat k (expandVariables env v)) := by
  simp [processPropsLine, hk, hv]

/-- Rule-key hygiene required for idempotence of the properties adapter:
the key survives a round trip through `f"{key}={value}\n"` followed by
re-parsing. -/
def CleanKey (k : String) : Prop :=
  pyStrip k = k ∧ '=' ∉ k.data ∧ k.data.head? ≠ some '#'

theorem processPropsLine_idem (rules : List (String × Val)) (env : Env)
    (hkeys : ∀ kv ∈ rules, CleanKey kv.1) (l : String) :
    processPropsLine rules env ((processPropsLine rules env l).2)
      = processPropsLine rules env l := by
  cases hk : lineKey l with
  | none =>
    rw [processPropsLine_no_key rules env l hk]
    exact processPropsLine_no_key rules env l hk
  | some k =>
    cases hv : assocLookup rules k with
    | none =>
      rw [processPropsLine_no_rule rules env l k hk hv]
      exact processPropsLine_no_rule rules env l k hk hv
    | some v =>
      rw [processPropsLine_hit rules env l k v hk hv]
      have hmem : (k, v) ∈ rules := mem_of_assocLookup rules k v hv
      obtain ⟨h1, h2, h3⟩ := hkeys (k, v) hmem
      have hlk := lineKey_propsFormat k (expandVariables env v) h1 h2 h3
      exact processPropsLine_hit rules env _ k v hlk hv

theorem processPropsLine_fmt (rules : List (String × Val)) (env : Env)
    (hnd : (rules.map Prod.fst).Nodup) (hkeys : ∀ kv ∈ rules, CleanKey kv.1)
    (kv : String × Val) (hmem : kv ∈ rules) :
    processPropsLine rules env (propsFormat kv.1 (expandVariables env kv.2))
      = (some kv.1, propsFormat kv.1 (expandVariables env kv.2)) := by
  obtain ⟨h1, h2, h3⟩ := hkeys kv hmem
  have hlk := lineKey_propsFormat kv.1 (expandVariables env kv.2) h1 h2 h3
  have hv : assocLookup rules kv.1 = some kv.2 :=
    assocLookup_of_mem_nodup rules kv.1 kv.2 hmem hnd
  exact processPropsLine_hit rules env _ kv.1 kv.2 hlk hv

theorem parseProps_idem (lines : List String) (rules : List (String × Val)) (env : Env)
    (hnd : (rules.map Prod.fst).Nodup) (hkeys : ∀ kv ∈ rules, CleanKey kv.1) :
    parseProps (parseProps lines rules env) rules env = parseProps lines rules env := by
  have hOUT := parseProps_eq lines rules env
  rw [parseProps_eq (parseProps lines rules env) rules env]
  have hstable : ∀ o ∈ parseProps lines rules env,
      processPropsLine rules env o = ((processPropsLine rules env o).1, o) := by
    intro o ho
    rw [hOUT] at ho
    rcases List.mem_append.mp ho with hmem | hmem
    · rcases List.mem_map.mp hmem with ⟨l, _, rfl⟩
      rw [processPropsLine_idem rules env hkeys l]
    · rcases List.mem_map.mp hmem with ⟨kv, hkv, rfl⟩
      rw [processPropsLine_fmt rules env hnd hkeys kv (List.mem_filter.mp hkv).1]
  have hsnd : ∀ o ∈ parseProps lines rules env,
      (processPropsLine rules env o).2 = o := fun o ho => congrArg Prod.snd (hstable o ho)
  have hmapid : (parseProps lines rules env).map
      (fun l => (processPropsLine rules env l).2) = parseProps lines rules env := by
    have hm := List.map_congr_left (l := parseProps lines rules env)
      (f := fun l => (processPropsLine rules env l).2) (g := id)
      (fun o ho => by
        show (processPropsLine rules env o).2 = id o
        exact hsnd o ho)
    simpa using hm
  have hcover : ∀ kv ∈ rules,
      (((parseProps lines rules env).filterMap
        (fun l => (processPropsLine rules env l).1)).any (fun k' => k' == kv.1)) = true := by
    intro kv hkv
    by_cases hc : ((lines.filterMap (fun l => (processPropsLine rules env l).1)).any
        (fun k' => k' == kv.1)) = true
    · rcases List.any_eq_true.mp hc with ⟨k', hk'mem, hbeq⟩
      have hkeq : k' = kv.1 := by simpa using hbeq
      subst hkeq
      rcases List.mem_filterMap.mp hk'mem with ⟨l, hl, hgl⟩
      apply List.any_eq_true.mpr
      refine ⟨kv.1, ?_, by simp⟩
      apply List.mem_filterMap.mpr
      refine ⟨(processPropsLine rules env l).2, ?_, ?_⟩
      · rw [hOUT]
        exact List.mem_append.mpr (Or.inl (List.mem_map_of_mem _ hl))
      · rw [processPropsLine_idem rules env hkeys l, hgl]
    · have hcond : (!((lines.filterMap (fun l => (processPropsLine rules env l).1)).any
          (fun k' => k' == kv.1))) = true := by
        revert hc
        cases ((lines.filterMap (fun l => (processPropsLine rules env l).1)).any
          (fun k' => k' == kv.1)) <;> simp
      have hmemfilter : kv ∈ rules.filter (fun kv =>
          !((lines.filterMap (fun l => (processPropsLine rules env l).1)).any
            (fun k' => k' == kv.1))) := List.mem_filter.mpr ⟨hkv, hcond⟩
      apply List.any_eq_true.mpr
      refine ⟨kv.1, ?_, by simp⟩
      apply List.mem_filterMap.mpr
      refine ⟨propsFormat kv.1 (expandVariables env kv.2), ?_, ?_⟩
      · rw [hOUT]
        exact List.mem_append.mpr (Or.inr (List.mem_map_of_mem _ hmemfilter))
      · rw [processPropsLine_fmt rules env hnd hkeys kv hkv]
  have hfilter : (rules.filter (fun kv =>
      !(((parseProps lines rules env).filterMap
        (fun l => (processPropsLine rules env l).1)).any (fun k' => k' == kv.1)))) = [] := by
    apply List.filter_eq_nil_iff.mpr
    intro kv hkv
    simp [hcover kv hkv]
  rw [hmapid, hfilter]
  simp

/-! ### Claim C8 -/

/-- C8: the properties adapter patching `a=1\nb=2\n` with rules `{b: 3, c: 4}`
yields exactly `a=1\nb=3\nc=4\n`; in general the output is the input lines in
order, each rewritten in place to `key=value` exactly when its trimmed key
before `=` is a rule key, followed by the rules whose keys were never
encountered, in rule order (the second conjunct characterises the scan loop
of `_parse_properties` as a per-line map plus an append of unmatched rules). -/
theorem C8_properties_adapter :
    parseProps ["a=1\n", "b=2\n"] [("b", Val.int 3), ("c", Val.int 4)] envNone
        = ["a=1\n", "b=3\n", "c=4\n"]
      ∧ (∀ (lines : List String) (rules : List (String × Val)) (env : Env),
          parseProps lines rules env
            = lines.map (fun l => (processPropsLine rules env l).2)
              ++ ((rules.filter (fun kv =>
                  !((lines.filterMap (fun l => (processPropsLine rules env l).1)).any
                    (fun k' => k' == kv.1)))).map
                (fun kv => propsFormat kv.1 (expandVariables env kv.2)))) :=
  ⟨rfl, parseProps_eq⟩

/-! ### Claim C9 -/

/-- C9 (amended): reapplying the same rules with an unchanged environment
reproduces the output line list exactly, under the hygiene conditions the code
actually requires.  Properties adapter: rule keys must be distinct, trimmed,
`=`-free and not begin with `#` (otherwise an appended `key=value` line is not
re-recognised and is appended again, duplicating it).  Generic line adapter:
every rule's expanded replacement line must itself be stable under single-line
processing (otherwise a replacement can be re-matched by a different rule and
rewritten again, as the counterexample shows); under that condition the second
pass maps every line to itself and appends nothing. -/
theorem C9_idempotence_restricted :
    (∀ (lines : List String) (rules : List (String × Val)) (env : Env),
        (rules.map Prod.fst).Nodup → (∀ kv ∈ rules, CleanKey kv.1) →
        parseProps (parseProps lines rules env) rules env = parseProps lines rules env)
      ∧ (∀ (lines out : List String) (rules : List (String × Val)) (env : Env),
          (∀ kv ∈ rules, ∀ s, expandVariables env kv.2 = .str s →
            processFileLine rules env (ensureNL s) = some (ensureNL s)) →
          parseFileLines lines rules env = some out →
          parseFileLines out rules env = some out) := by
  constructor
  · intro lines rules env hnd hkeys
    exact parseProps_idem lines rules env hnd hkeys
  · intro lines out rules env hfix h
    apply parseFileLines_of_all_stable
    intro o ho
    obtain ⟨l, _, hl⟩ := forall2_mem_right (parseFileLines_forall2 rules env lines out h) o ho
    exact processFileLine_stable rules env hfix l o hl

/-- C9 witness: both idempotence statements at concrete inputs — a properties
file `a=1\n` with rule `{b: 3}`, and a generic file whose replacement line
`motd=new` re-matches only its own rule. -/
theorem C9_idempotence_witness :
    parseProps (parseProps ["a=1\n"] [("b", Val.int 3)] envNone)
        [("b", Val.int 3)] envNone
      = parseProps ["a=1\n"] [("b", Val.int 3)] envNone
      ∧ parseFileLines ["motd=new\n"] [("motd=", Val.str "motd=new")] envNone
          = some ["motd=new\n"] := by
  constructor
  · exact C9_idempotence_restricted.1 ["a=1\n"] [("b", Val.int 3)] envNone (by decide)
      (by
        intro kv hkv
        simp only [List.mem_singleton] at hkv
        subst hkv
        exact ⟨by decide, by decide, by decide⟩)
  · exact C9_idempotence_restricted.2 ["motd=old\n"] ["motd=new\n"]
      [("motd=", Val.str "motd=new")] envNone
      (by
        intro kv hkv s hs
        simp only [List.mem_singleton] at hkv
        subst hkv
        have h2 : Val.str "motd=new" = Val.str s := hs
        injection h2 with h3
        subst h3
        rfl)
      rfl

/-- C9 counterexample: with rules `[a -> b, b -> c]` the generic adapter is
not idempotent — the first pass rewrites line `a` to `b`, and the second pass
rewrites that `b` to `c`, so the second output differs from the first. -/
theorem C9_chain_counterexample :
    parseFileLines ["a\n"] [("a", Val.str "b"), ("b", Val.str "c")] envNone
        = some ["b\n"]
      ∧ parseFileLines ["b\n"] [("a", Val.str "b"), ("b", Val.str "c")] envNone
          = some ["c\n"]
      ∧ (some ["c\n"] : Option (List String)) ≠ some ["b\n"] :=
  ⟨rfl, rfl, by decide⟩

/-! ### Wildcard-split lemmas -/

theorem findStarSep_cons_ne (c : Char) (rest : List Char) (h : c ≠ '.') :
    findStarSep (c :: rest)
      = match findStarSep rest with
        | some (a, b) => some (c :: a, b)
        | none => none := by
  conv_lhs => unfold findStarSep
  split
  · rename_i rest' heq
    injection heq with hc _
    exact absurd hc h
  · rename_i x c' rest' hno heq
    injection heq with hc hrest
    subst hc
    subst hrest
    rfl
  · rename_i heq
    exact absurd heq (by simp)

theorem findStarSep_no_dot (cs : List Char) (h : '.' ∉ cs) : findStarSep cs = none := by
  induction cs with
  | nil => rfl
  | cons c rest ih =>
    have hc : c ≠ '.' := fun e => h (by simp [e])
    rw [findStarSep_cons_ne c rest hc, ih (fun m => h (by simp [m]))]

theorem findStarSep_at_sep (p s : List Char) (hp : '.' ∉ p) :
    findStarSep (p ++ '.' :: '*' :: '.' :: s) = some (p, s) := by
  induction p with
  | nil => rfl
  | cons c p' ih =>
    have hc : c ≠ '.' := fun e => hp (by simp [e])
    rw [List.cons_append, findStarSep_cons_ne c _ hc, ih (fun m => hp (by simp [m]))]

theorem splitStarF_step (f : Nat) (cs pre post : List Char)
    (h : findStarSep cs = some (pre, post)) :
    splitStarF (f + 1) cs = pre :: splitStarF f post := by
  conv_lhs => unfold splitStarF
  rw [h]

theorem splitStarF_last (f : Nat) (cs : List Char) (h : findStarSep cs = none) :
    splitStarF f cs = [cs] := by
  conv_lhs => unfold splitStarF
  rw [h]

theorem splitStar_pair (p s : String) (hp : '.' ∉ p.data) (hs : '.' ∉ s.data) :
    splitStar (p ++ ".*." ++ s) = [p, s] := by
  have hdata : (p ++ ".*." ++ s).data = p.data ++ '.' :: '*' :: '.' :: s.data := by
    simp [String.data_append]
  have hlen : (p.data ++ '.' :: '*' :: '.' :: s.data).length
      = (p.data.length + 2 + s.data.length) + 1 := by
    simp [List.length_append]
    omega
  unfold splitStar
  rw [hdata, hlen, splitStarF_step _ _ _ _ (findStarSep_at_sep p.data s.data hp),
    splitStarF_last _ _ (findStarSep_no_dot s.data hs)]
  rfl

theorem containsDotStarDot_join (p s : String) :
    containsDotStarDot (p ++ ".*." ++ s) = true := by
  unfold containsDotStarDot
  apply decide_eq_true
  exact ⟨p.data, s.data, by simp [String.data_append]⟩

theorem foldlM_eq_const {α : Type} (f : Val → α → Option Val)
    (hf : ∀ d k, f d k = some d) :
    ∀ (l : List α) (d : Val), List.foldlM f d l = some d := by
  intro l
  induction l with
  | nil => intro d; rfl
  | cons x l ih =>
    intro d
    simp [List.foldlM_cons, hf d x, ih d]

theorem yamlWildcardStep_char (p s k : String) (spec kvs : List (String × Val))
    (hp : SimpleKey p) (hk : SimpleKey k) (hs : SimpleKey s)
    (hh : (getKeys (.dict kvs) [p, k, s]).hashable = true) :
    ∃ kvs', yamlWildcardStep p s (.dict spec) (.dict kvs) k = some (.dict kvs') ∧
      getKeys (.dict kvs') [p, k, s]
        = wildcardTransform spec (getKeys (.dict kvs) [p, k, s]) ∧
      ∀ k' : String, k' ≠ k →
        getKeys (.dict kvs') [p, k', s] = getKeys (.dict kvs) [p, k', s] := by
  simp only [yamlWildcardStep]
  rw [getPath_three _ p k s hp.1 hk.1 hs.1]
  cases hcur : getKeys (.dict kvs) [p, k, s] with
  | str c =>
    cases hlk : assocLookup spec c with
    | some w =>
      simp only [hlk]
      rw [setPath_three _ p k s w hp hk hs]
      obtain ⟨kvs', hset, hget⟩ := setKeys_plain_roundtrip w [p, k, s] (by simp)
        (by
          intro x hx
          simp only [List.mem_cons, List.not_mem_nil, or_false] at hx
          rcases hx with rfl | rfl | rfl
          · exact parseBracket_of_simple x hp
          · exact parseBracket_of_simple x hk
          · exact parseBracket_of_simple x hs) kvs
      refine ⟨kvs', hset, ?_, ?_⟩
      · rw [hget]
        simp [wildcardTransform, hlk]
      · intro k' hne
        exact setKeys_sibling_frame p k k' s kvs w _ (parseBracket_of_simple p hp)
          (parseBracket_of_simple k hk) (parseBracket_of_simple s hs) hne hset
    | none =>
      refine ⟨kvs, by simp [hlk], ?_, fun k' _ => rfl⟩
      rw [hcur]
      simp [wildcardTransform, hlk]
  | null =>
    refine ⟨kvs, rfl, ?_, fun k' _ => rfl⟩
    rw [hcur]
    simp [wildcardTransform]
  | bool b =>
    refine ⟨kvs, rfl, ?_, fun k' _ => rfl⟩
    rw [hcur]
    simp [wildcardTransform]
  | int n =>
    refine ⟨kvs, rfl, ?_, fun k' _ => rfl⟩
    rw [hcur]
    simp [wildcardTransform]
  | list xs =>
    rw [hcur] at hh
    exact absurd hh (by simp [Val.hashable])
  | dict d0 =>
    rw [hcur] at hh
    exact absurd hh (by simp [Val.hashable])

/-- A list- or dict-valued sibling value makes the wildcard loop body raise
`TypeError` at the membership test of line 148. -/
theorem yamlWildcardStep_unhashable (p s k : String) (spec kvs : List (String × Val))
    (hp : SimpleKey p) (hk : SimpleKey k) (hs : SimpleKey s)
    (hh : (getKeys (.dict kvs) [p, k, s]).hashable = false) :
    yamlWildcardStep p s (.dict spec) (.dict kvs) k = none := by
  simp only [yamlWildcardStep]
  rw [getPath_three _ p k s hp.1 hk.1 hs.1]
  cases hcur : getKeys (.dict kvs) [p, k, s] with
  | list xs => rfl
  | dict d0 => rfl
  | null => rw [hcur] at hh; exact absurd hh (by simp [Val.hashable])
  | bool b => rw [hcur] at hh; exact absurd hh (by simp [Val.hashable])
  | int n => rw [hcur] at hh; exact absurd hh (by simp [Val.hashable])
  | str c => rw [hcur] at hh; exact absurd hh (by simp [Val.hashable])

theorem yamlWildcardFold (p s : String) (spec : List (String × Val))
    (hp : SimpleKey p) (hs : SimpleKey s) :
    ∀ (ks : List String) (kvs : List (String × Val)),
      ks.Nodup → (∀ k ∈ ks, SimpleKey k) →
      (∀ k ∈ ks, (getKeys (Val.dict kvs) [p, k, s]).hashable = true) →
      ∃ kvs', List.foldlM (yamlWildcardStep p s (.dict spec)) (Val.dict kvs) ks
          = some (Val.dict kvs') ∧
        ∀ k' : String,
          getKeys (Val.dict kvs') [p, k', s]
            = if k' ∈ ks then wildcardTransform spec (getKeys (Val.dict kvs) [p, k', s])
              else getKeys (Val.dict kvs) [p, k', s] := by
  intro ks
  induction ks with
  | nil =>
    intro kvs _ _ _
    exact ⟨kvs, rfl, fun k' => by simp⟩
  | cons k ks ih =>
    intro kvs hnd hsimple hhash
    obtain ⟨kvs1, hstep, hget1, hframe1⟩ :=
      yamlWildcardStep_char p s k spec kvs hp (hsimple k (by simp)) hs
        (hhash k (by simp))
    obtain ⟨kvs', hfold, hchar⟩ := ih kvs1 (List.nodup_cons.mp hnd).2
      (fun x hx => hsimple x (by simp [hx]))
      (by
        intro x hx
        have hne : x ≠ k := by
          intro e
          exact (List.nodup_cons.mp hnd).1 (e ▸ hx)
        rw [hframe1 x hne]
        exact hhash x (by simp [hx]))
    refine ⟨kvs', ?_, ?_⟩
    · simp [List.foldlM_cons, hstep, hfold]
    · intro k'
      by_cases hmem : k' ∈ k :: ks
      · rw [if_pos hmem]
        rcases List.mem_cons.mp hmem with rfl | hmem2
        · have hnot : k' ∉ ks := (List.nodup_cons.mp hnd).1
          rw [hchar k', if_neg hnot, hget1]
        · have hne : k' ≠ k := by
            intro e
            exact (List.nodup_cons.mp hnd).1 (e ▸ hmem2)
          rw [hchar k', if_pos hmem2, hframe1 k' hne]
      · rw [if_neg hmem]
        have hne : k' ≠ k := fun e => hmem (by simp [e])
        have hnot : k' ∉ ks := fun m => hmem (by simp [m])
        rw [hchar k', if_neg hnot, hframe1 k' hne]

/-- If any sibling key carries a list- or dict-valued current value, the
wildcard loop raises: the fold over the sibling keys produces `none`. -/
theorem yamlWildcardFoldError (p s : String) (spec : List (String × Val))
    (hp : SimpleKey p) (hs : SimpleKey s) :
    ∀ (ks : List String) (kvs : List (String × Val)),
      ks.Nodup → (∀ k ∈ ks, SimpleKey k) →
      (∃ k ∈ ks, (getKeys (Val.dict kvs) [p, k, s]).hashable = false) →
      List.foldlM (yamlWildcardStep p s (.dict spec)) (Val.dict kvs) ks = none := by
  intro ks
  induction ks with
  | nil =>
    intro kvs _ _ hex
    rcases hex with ⟨k0, hk0, _⟩
    exact absurd hk0 (List.not_mem_nil k0)
  | cons k ks ih =>
    intro kvs hnd hsimple hex
    cases hb : (getKeys (Val.dict kvs) [p, k, s]).hashable with
    | false =>
      simp [List.foldlM_cons,
        yamlWildcardStep_unhashable p s k spec kvs hp (hsimple k (by simp)) hs hb]
    | true =>
      obtain ⟨kvs1, hstep, hget1, hframe1⟩ :=
        yamlWildcardStep_char p s k spec kvs hp (hsimple k (by simp)) hs hb
      have hrest : List.foldlM (yamlWildcardStep p s (.dict spec)) (Val.dict kvs1) ks
          = none := by
        apply ih kvs1 (List.nodup_cons.mp hnd).2 (fun x hx => hsimple x (by simp [hx]))
        rcases hex with ⟨k0, hk0, hk0h⟩
        rcases List.mem_cons.mp hk0 with rfl | hk0t
        · rw [hb] at hk0h
          exact absurd hk0h (by simp)
        · have hne : k0 ≠ k := by
            intro e
            exact (List.nodup_cons.mp hnd).1 (e ▸ hk0t)
          exact ⟨k0, hk0t, by rw [hframe1 k0 hne]; exact hk0h⟩
      simp [List.foldlM_cons, hstep, hrest]

/-! ### Claim C3 -/

/-- C3 (amended): for a wildcard rule `prefix.*.suffix` whose value
specification is a map, with prefix, suffix and all sibling keys being single
dot- and bracket-free segments: if the prefix is not present as a (literal
top-level) key holding a map, no write occurs at all; otherwise, provided
every sibling's current value at `prefix.k.suffix` is hashable (not a list or
a dict), for each key `k` directly under the prefix that value becomes the
specification map's entry exactly when it is a string occurring among the
map's keys, and is left untouched otherwise; and if some sibling's current
value is a list or a dict, the rule application raises (`TypeError: unhashable
type` at the membership test `current_val in final_value`) instead of
completing.  The unamended claim fails in two ways the counterexample and the
error part record: it let the prefix resolve as a dotted path, while the code
looks the whole prefix up as one literal key (`data[prefix]`), and it promised
a silent skip for every non-matching sibling, while a list- or dict-valued
sibling crashes the run. -/
theorem C3_wildcard_map_rule :
    (∀ (kvs : List (String × Val)) (p s : String) (spec : List (String × Val)),
        SimpleKey p → SimpleKey s →
        (∀ inner, assocLookup kvs p ≠ some (.dict inner)) →
        applyYamlRule (.dict kvs) (p ++ ".*." ++ s) (.dict spec) = some (.dict kvs))
      ∧ (∀ (kvs inner : List (String × Val)) (p s : String) (spec : List (String × Val)),
          SimpleKey p → SimpleKey s → assocLookup kvs p = some (.dict inner) →
          (∀ kv ∈ inner, SimpleKey kv.1) → (inner.map Prod.fst).Nodup →
          (∀ k ∈ inner.map Prod.fst,
            (getKeys (Val.dict kvs) [p, k, s]).hashable = true) →
          ∃ d', applyYamlRule (.dict kvs) (p ++ ".*." ++ s) (.dict spec) = some d' ∧
            ∀ k ∈ inner.map Prod.fst,
              getPath d' (p ++ "." ++ k ++ "." ++ s)
                = wildcardTransform spec
                    (getPath (.dict kvs) (p ++ "." ++ k ++ "." ++ s)))
      ∧ (∀ (kvs inner : List (String × Val)) (p s : String) (spec : List (String × Val)),
          SimpleKey p → SimpleKey s → assocLookup kvs p = some (.dict inner) →
          (∀ kv ∈ inner, SimpleKey kv.1) → (inner.map Prod.fst).Nodup →
          (∃ k ∈ inner.map Prod.fst,
            (getKeys (Val.dict kvs) [p, k, s]).hashable = false) →
          applyYamlRule (.dict kvs) (p ++ ".*." ++ s) (.dict spec) = none) := by
  refine ⟨?_, ?_, ?_⟩
  · intro kvs p s spec hp hs hskip
    simp only [applyYamlRule, containsDotStarDot_join p s, if_true]
    rw [splitStar_pair p s hp.1 hs.1]
    cases hl : assocLookup kvs p with
    | none => simp [hl]
    | some w =>
      cases w with
      | dict inner => exact absurd hl (hskip inner)
      | null => simp [hl]
      | bool b => simp [hl]
      | int n => simp [hl]
      | str s2 => simp [hl]
      | list xs => simp [hl]
  · intro kvs inner p s spec hp hs hl hsimple hnd hhash
    obtain ⟨kvs', hfold, hchar⟩ := yamlWildcardFold p s spec hp hs
      (inner.map Prod.fst) kvs hnd
      (by
        intro k hk
        rcases List.mem_map.mp hk with ⟨kv, hkv, rfl⟩
        exact hsimple kv hkv)
      hhash
    refine ⟨.dict kvs', ?_, ?_⟩
    · simp only [applyYamlRule, containsDotStarDot_join p s, if_true]
      rw [splitStar_pair p s hp.1 hs.1]
      simp only [hl]
      exact hfold
    · intro k hk
      have hksim : SimpleKey k := by
        rcases List.mem_map.mp hk with ⟨kv, hkv, rfl⟩
        exact hsimple kv hkv
      rw [getPath_three _ p k s hp.1 hksim.1 hs.1,
        getPath_three _ p k s hp.1 hksim.1 hs.1, hchar k, if_pos hk]
  · intro kvs inner p s spec hp hs hl hsimple hnd hex
    simp only [applyYamlRule, containsDotStarDot_join p s, if_true]
    rw [splitStar_pair p s hp.1 hs.1]
    simp only [hl]
    exact yamlWildcardFoldError p s spec hp hs (inner.map Prod.fst) kvs hnd
      (by
        intro k hk
        rcases List.mem_map.mp hk with ⟨kv, hkv, rfl⟩
        exact hsimple kv hkv)
      hex

/-- C3 witness: the spec's own example — `{servers: {s1: {mode: old},
s2: {mode: new}}}` patched with `servers.*.mode -> {old: renamed}` rewrites
only `servers.s1.mode` (current value `old` is a key of the map) and leaves
`servers.s2.mode` untouched (`new` is not); and the error part at a concrete
input — a sibling whose value at the suffix path is a list makes the same
rule raise. -/
theorem C3_wildcard_witness :
    (∃ d', applyYamlRule
        (.dict [("servers", Val.dict [("s1", Val.dict [("mode", Val.str "old")]),
          ("s2", Val.dict [("mode", Val.str "new")])])])
        ("servers" ++ ".*." ++ "mode") (.dict [("old", Val.str "renamed")]) = some d' ∧
      ∀ k ∈ ([("s1", Val.dict [("mode", Val.str "old")]),
          ("s2", Val.dict [("mode", Val.str "new")])].map Prod.fst),
        getPath d' ("servers" ++ "." ++ k ++ "." ++ "mode")
          = wildcardTransform [("old", Val.str "renamed")]
              (getPath (.dict [("servers", Val.dict [("s1", Val.dict [("mode", Val.str "old")]),
                ("s2", Val.dict [("mode", Val.str "new")])])])
                ("servers" ++ "." ++ k ++ "." ++ "mode")))
    ∧ applyYamlRule
        (.dict [("servers", Val.dict [("s1", Val.dict [("mode", Val.list [Val.str "x"])])])])
        ("servers" ++ ".*." ++ "mode") (.dict [("old", Val.str "renamed")]) = none :=
  ⟨C3_wildcard_map_rule.2.1
    [("servers", Val.dict [("s1", Val.dict [("mode", Val.str "old")]),
      ("s2", Val.dict [("mode", Val.str "new")])])]
    [("s1", Val.dict [("mode", Val.str "old")]), ("s2", Val.dict [("mode", Val.str "new")])]
    "servers" "mode" [("old", Val.str "renamed")] (by decide) (by decide) rfl
    (by
      intro kv hkv
      rcases List.mem_cons.mp hkv with rfl | hkv2
      · exact (by decide : SimpleKey "s1")
      · rcases List.mem_cons.mp hkv2 with rfl | hkv3
        · exact (by decide : SimpleKey "s2")
        · exact absurd hkv3 (by simp))
    (by decide)
    (by
      intro k hk
      simp only [List.map_cons, List.map_nil, List.mem_cons, List.not_mem_nil,
        or_false] at hk
      rcases hk with rfl | rfl
      · rfl
      · rfl),
   C3_wildcard_map_rule.2.2
    [("servers", Val.dict [("s1", Val.dict [("mode", Val.list [Val.str "x"])])])]
    [("s1", Val.dict [("mode", Val.list [Val.str "x"])])]
    "servers" "mode" [("old", Val.str "renamed")] (by decide) (by decide) rfl
    (by
      intro kv hkv
      rcases List.mem_cons.mp hkv with rfl | hkv2
      · exact (by decide : SimpleKey "s1")
      · exact absurd hkv2 (by simp))
    (by decide)
    ⟨"s1", by simp, rfl⟩⟩

/-- C3 counterexample: with the dotted prefix `a.b`, document
`{a: {b: {k: {c: "old"}}}}` and specification map `{old: new}`, the prefix
resolves (in the path-addressing sense the claim's wording uses) to a map
whose sibling `k` carries the value `old` at `a.b.k.c`, so the claim demands
that value be overwritten with `new`; the code checks `"a.b" in data` as a
literal key, finds nothing, and leaves the document completely unchanged. -/
theorem C3_dotted_prefix_counterexample :
    applyYamlRule
        (.dict [("a", Val.dict [("b", Val.dict [("k", Val.dict [("c", Val.str "old")])])])])
        "a.b.*.c" (.dict [("old", Val.str "new")])
      = some (.dict [("a", Val.dict [("b", Val.dict [("k", Val.dict [("c", Val.str "old")])])])])
      ∧ getPath (.dict [("a", Val.dict [("b", Val.dict [("k", Val.dict [("c", Val.str "old")])])])])
          "a.b" = Val.dict [("k", Val.dict [("c", Val.str "old")])]
      ∧ getPath (.dict [("a", Val.dict [("b", Val.dict [("k", Val.dict [("c", Val.str "old")])])])])
          "a.b.k.c" = Val.str "old"
      ∧ Val.str "old" ≠ Val.str "new" :=
  ⟨rfl, rfl, rfl, fun h => by injection h with h2; exact absurd h2 (by decide)⟩

/-! ### Claim C10 -/

/-- C10: a wildcard rule whose expanded value specification is not a map
performs no write at all: the guard `isinstance(final_value, dict)` is false
for every sibling, so every sibling under the prefix and the rest of the
document are left unchanged. -/
theorem C10_nondict_wildcard_no_write (kvs : List (String × Val)) (mt ps ss : String)
    (fv : Val) (hnd : fv.isDict = false) (hc : containsDotStarDot mt = true)
    (hsplit : splitStar mt = [ps, ss]) :
    applyYamlRule (.dict kvs) mt fv = some (.dict kvs) := by
  unfold applyYamlRule
  rw [if_pos hc, hsplit]
  cases hl : assocLookup kvs ps with
  | none => simp [hl]
  | some w =>
    cases w with
    | dict inner =>
      simp only [hl]
      apply foldlM_eq_const
      intro d k
      cases fv with
      | dict spec => simp [Val.isDict] at hnd
      | null => rfl
      | bool b => rfl
      | int n => rfl
      | str s2 => rfl
      | list xs => rfl
    | null => simp [hl]
    | bool b => simp [hl]
    | int n => simp [hl]
    | str s2 => simp [hl]
    | list xs => simp [hl]

/-- C10 witness: a scalar specification on a wildcard rule leaves the sample
servers document untouched. -/
theorem C10_nondict_witness :
    applyYamlRule (.dict [("servers", Val.dict [("s1", Val.dict [("mode", Val.str "old")])])])
        "servers.*.mode" (Val.str "x")
      = some (.dict [("servers", Val.dict [("s1", Val.dict [("mode", Val.str "old")])])]) :=
  C10_nondict_wildcard_no_write _ "servers.*.mode" "servers" "mode" (Val.str "x") rfl
    (by decide) (by decide)
